import Mathlib

/-!
Verification of `amptorch/NN_model.py` (Behler–Parrinello style composite
neural-network potential).  Python float tensors are modelled by exact
rationals (`ℚ`); 1-column tensors (such as `energy_pred`, shape `B×1`, and
the per-atom scalar outputs, shape `Q×1`) are modelled as `List ℚ`;
2-dimensional tensors are `List (List ℚ)` in row-major layout.  The
`Tanh` activation and its derivative are irrational, so they are threaded
through the development as explicit function parameters `σ`/`σd`; no claim
below depends on their values.  Fallible tensor operations (index errors,
shape-incompatible products, dictionary lookups) return `Option`/`Except`.
-/

/-! ## Vectors and matrices -/

abbrev Vec := List ℚ
abbrev Mat := List (List ℚ)

/-- Dot product of two rows (equal length in every use below). -/
def dot (xs ys : Vec) : ℚ := (List.zipWith (· * ·) xs ys).sum

/-- Shape of a matrix: `some (rows, cols)` when rectangular, else `none`
(a ragged list of rows does not correspond to any tensor). -/
def matShape? : Mat → Option (ℕ × ℕ)
  | [] => some (0, 0)
  | r :: rest =>
    if (r :: rest).all (fun row => row.length = r.length) then
      some ((r :: rest).length, r.length)
    else none

/-- Transpose of a row-major rectangular matrix (generic element type,
`d` is a default never read on rectangular input). -/
def trM {α : Type} (d : α) (m : List (List α)) : List (List α) :=
  (List.range ((m.headD []).length)).map (fun j => m.map (fun row => row.getD j d))

/-- Matrix product with the dimension check `torch.mm` / `torch.sparse.mm`
performs: defined only when the inner dimensions agree (sparsity of the
left operand in the source is a performance detail, not semantic). -/
def matMul? (a b : Mat) : Option Mat := do
  let sa ← matShape? a
  let sb ← matShape? b
  if sa.2 = sb.1 then
    some (a.map (fun row => (trM 0 b).map (fun col => dot row col)))
  else none

/-- Elementwise negation, the `-1 *` of `NN_model.py` line 154. -/
def negMat (m : Mat) : Mat := m.map (fun row => row.map (fun x => -x))

/-- Row-major regrouping into rows of three, used to model
`.reshape(-1, 3)`; `torch` raises when the element count is not a
multiple of 3. -/
def chunks3 : List ℚ → List (List ℚ)
  | a :: b :: c :: rest => [a, b, c] :: chunks3 rest
  | _ => []

/-- Model of `t.reshape(-1, 3)` on a row-major tensor `m`. -/
def reshape3? (m : Mat) : Option Mat :=
  let fl := m.flatten
  if fl.length % 3 = 0 then some (chunks3 fl) else none

/-! ## `DenseL` and `MLP` (NN_model.py lines 19–86)

A `Dense` layer holds a weight matrix (output × input, as in
`nn.Linear`), a bias vector and a flag recording whether the configured
activation is applied (`activation=None` in the source becomes
`act = false`).  Weight initialization (lines 36–39) only fixes the
starting values of trainable state and is irrelevant to every claim, so
layers carry arbitrary rational weights. -/

structure DenseL where
  weight : List (List ℚ)
  bias : List ℚ
  act : Bool
deriving DecidableEq, Repr

/-- Affine part `W·x + b` of `DenseL.forward` (line 42). -/
def denseLin (d : DenseL) (x : Vec) : Vec :=
  (d.weight.zip d.bias).map (fun wb => dot wb.1 x + wb.2)

/-- `DenseL.forward` (lines 41–45): affine map, then activation when
configured.  `σ` models the activation function. -/
def DenseL.fwd (σ : ℚ → ℚ) (d : DenseL) (x : Vec) : Vec :=
  let lin := denseLin d x
  if d.act then lin.map σ else lin

/-- `MLP.forward` (lines 80–86): thread the input through the layers of
`model_net` in order. -/
def mlpForward (σ : ℚ → ℚ) (layers : List DenseL) (x : Vec) : Vec :=
  layers.foldl (fun v d => d.fwd σ v) x

/-- Scalar output of a sub-network on one atom's descriptor: the single
entry of the final 1-dimensional layer output. -/
def mlpOut (σ : ℚ → ℚ) (layers : List DenseL) (x : Vec) : ℚ :=
  (mlpForward σ layers x).headD 0

/-- Vector–Jacobian product (backpropagation) through a layer list:
`vjp σ σd layers x cot` is the gradient, with respect to `x`, of
`cot · mlpForward σ layers x`, where `σd` is the derivative of `σ`.
This models what `torch.autograd.grad` computes for the chain of `DenseL`
layers. -/
def vjp (σ σd : ℚ → ℚ) : List DenseL → Vec → Vec → Vec
  | [], _, cot => cot
  | d :: rest, x, cot =>
    let lin := denseLin d x
    let y := if d.act then lin.map σ else lin
    let cotOut := vjp σ σd rest y cot
    let cotLin := if d.act then List.zipWith (fun c l => c * σd l) cotOut lin else cotOut
    (List.zipWith (fun c row => row.map (fun w => c * w)) cotLin d.weight).foldr
      (fun v acc => List.zipWith (· + ·) v acc) (List.replicate x.length 0)

/-- Gradient row of the scalar sub-network output with respect to one
atom's descriptor vector: the rows `torch.autograd.grad(energy_pred,
model_inputs, grad_outputs=ones)` produces (lines 140–145), per atom.
`energy_pred` depends on this element's inputs only through this
element's per-atom scalar outputs, which are row-independent, so the
gradient is the per-atom gradient of `mlpOut`. -/
def mlpGradRow (σ σd : ℚ → ℚ) (layers : List DenseL) (x : Vec) : Vec :=
  vjp σ σd layers x [1]

/-! ## `MLP.__init__` layer construction (lines 60–78)

`n_neurons = [n_input_nodes] + n_hidden_size + [n_output_nodes]`; the
hidden layers read `n_neurons[i]`, `n_neurons[i+1]` for
`i in range(n_layers - 1)` — a Python `IndexError` (modelled as `none`)
when the list is too short — and the final layer reads
`n_neurons[-2]`, `n_neurons[-1]` (always in range: the list has length
≥ 2).  The result records each layer's `(input_size, output_size,
has_activation)`. -/

/-- The list comprehension of lines 73–76: one `(input, output, activation)`
triple per `i in range(n_layers - 1)`, reading `n_neurons[i]` and
`n_neurons[i + 1]` (`none` models the `IndexError` on an out-of-range
read). -/
def mlpHiddenDims (n_neurons : List ℕ) (n_layers : ℕ) : Option (List (ℕ × ℕ × Bool)) :=
  (List.range (n_layers - 1)).mapM (fun i => do
    let a ← n_neurons.get? i
    let b ← n_neurons.get? (i + 1)
    pure (a, b, true))

def mlpLayerDims (n_input_nodes n_output_nodes n_layers : ℕ) (n_hidden_size : List ℕ) :
    Option (List (ℕ × ℕ × Bool)) := do
  let n_neurons := n_input_nodes :: n_hidden_size ++ [n_output_nodes]
  let hidden ← mlpHiddenDims n_neurons n_layers
  let a := n_neurons.getD (n_neurons.length - 2) 0
  let b := n_neurons.getD (n_neurons.length - 1) 0
  pure (hidden ++ [(a, b, false)])

/-! ## `FullNN` (NN_model.py lines 89–162)

`input_data` models the Python dict `element symbol → (stacked descriptor
rows, owner-index list)` as an association list; `lookupElem` is the
dictionary access `input_data[element]`, `none` modelling the `KeyError`
when the key is absent.  `elementwise_models` is keyed by exactly
`unique_atoms` in the source constructor, so its lookup never fails and
is modelled by a total function on element symbols. -/

structure ElemData where
  inputs : List Vec
  cidx : List ℕ
deriving DecidableEq, Repr

structure FullNN where
  unique_atoms : List String
  models : String → List DenseL
  forcetraining : Bool

def lookupElem (input_data : List (String × ElemData)) (e : String) : Option ElemData :=
  (input_data.find? (fun p => p.1 = e)).map Prod.snd

/-- Model of `energy_pred.index_add_(0, contribution_index, atomwise_outputs)`
(line 138) on a 1-column tensor: add `vals[k]` into row `idxs[k]`.
`torch` raises when an index is out of range or the index and source
lengths disagree; both are modelled as `none`. -/
def indexAdd? : List ℚ → List ℕ → List ℚ → Option (List ℚ)
  | base, [], [] => some base
  | base, i :: is, v :: vs =>
    if i < base.length then indexAdd? (base.set i (base.getD i 0 + v)) is vs else none
  | _, _, _ => none

/-- Running state of the element loop (lines 134–147): the partially
accumulated `energy_pred`, and — when force training — the concatenated
gradient rows `dE_dFP` and their owner indices `idx`. -/
structure FwdState where
  energy : List ℚ
  dE : List Vec
  idx : List ℕ
deriving DecidableEq, Repr

/-- The element loop of `FullNN.forward` (lines 134–147): for each element
of `unique_atoms` in order, fetch its batch group, run the sub-network on
each atom, scatter-add the per-atom scalars into `energy_pred`, and (when
force training) append the per-atom gradient rows and owner indices. -/
def fwdLoop (σ σd : ℚ → ℚ) (models : String → List DenseL) (ft : Bool)
    (input_data : List (String × ElemData)) :
    List String → FwdState → Option FwdState
  | [], st => some st
  | e :: rest, st => do
    let ed ← lookupElem input_data e
    let outs := ed.inputs.map (mlpOut σ (models e))
    let energy ← indexAdd? st.energy ed.cidx outs
    let st' :=
      if ft then
        { energy := energy
          dE := st.dE ++ ed.inputs.map (mlpGradRow σ σd (models e))
          idx := st.idx ++ ed.cidx }
      else
        { energy := energy, dE := st.dE, idx := st.idx }
    fwdLoop σ σd models ft input_data rest st'

/-- `torch.unique(idx)`: the distinct values in ascending order. -/
def uniqueSorted (idx : List ℕ) : List ℕ :=
  List.insertionSort (· ≤ ·) idx.dedup

/-- `idx[:, None] == torch.unique(idx)` (line 149): the `n × u` Boolean
matrix whose `(j, i)` entry says whether `idx[j]` equals the `i`-th
unique value. -/
def booleanMat (idx : List ℕ) : List (List Bool) :=
  idx.map (fun x => (uniqueSorted idx).map (fun u => decide (x = u)))

/-- Positions of the `true` entries of one row, in ascending order. -/
def truePosIdx (row : List Bool) : List ℕ :=
  (List.range row.length).filter (fun j => row.getD j false)

/-- `torch.nonzero(boolean.t())[:, -1]` (line 150): `torch.nonzero` lists
the index pairs of the true entries in row-major (lexicographic) order,
and `[:, -1]` keeps the column coordinate of each pair. -/
def orderedIdx (idx : List ℕ) : List ℕ :=
  (trM false (booleanMat idx)).flatMap truePosIdx

/-- `torch.index_select(dE_dFP, 0, ordered_idx)` (line 151): pick the
listed rows.  `torch` raises on an out-of-range index (`none` here). -/
def selectRows? (rows : List Vec) (js : List ℕ) : Option (List Vec) :=
  if js.all (fun j => j < rows.length) then some (js.map (fun j => rows.getD j [])) else none

/-- Force block of `FullNN.forward` (lines 148–158): reorder the gradient
rows by owner index, flatten them into the `1 × PQ` row `dE_dFP`, and
compute `-1 * torch.sparse.mm(fprimes.t(), dE_dFP.t())` reshaped to
`(-1, 3)`. -/
def forceFromGrads (fprimes : Mat) (dE : List Vec) (idx : List ℕ) : Option Mat := do
  let sel ← selectRows? dE (orderedIdx idx)
  let row := sel.flatten
  let prod ← matMul? (trM 0 fprimes) (trM 0 [row])
  reshape3? (negMat prod)

/-- `FullNN.forward` (lines 117–162).  `energy_pred` starts as the zero
column of length `batch_size`; when `forcetraining` is set the source
first dereferences `fprimes` (`fprimes.to(self.device)`, line 131 — an
`AttributeError` on `None`, modelled by the `Option.bind`), then runs the
element loop and the force block.  Returns `(energy_pred, force_pred)`,
with `force_pred = none` when force training is off. -/
def FullNN.forward (σ σd : ℚ → ℚ) (M : FullNN) (input_data : List (String × ElemData))
    (batch_size : ℕ) (fprimes : Option Mat) : Option (List ℚ × Option Mat) :=
  let st0 : FwdState := { energy := List.replicate batch_size 0, dE := [], idx := [] }
  if M.forcetraining then do
    let fp ← fprimes
    let st ← fwdLoop σ σd M.models true input_data M.unique_atoms st0
    let force ← forceFromGrads fp st.dE st.idx
    pure (st.energy, some force)
  else do
    let st ← fwdLoop σ σd M.models false input_data M.unique_atoms st0
    pure (st.energy, none)

/-! ## Extended values for the loss family (NN_model.py lines 165–289)

The loss functions apply `torch.log` and divide, operations whose
float semantics on non-positive or zero arguments produce `nan`/`±inf`
silently rather than raising.  `Fl` models a float as an exact rational
when finite, plus the three non-finite values, with IEEE-style
propagation for the operations the losses use.  The finite values of the
irrational functions (`log` on positives, `sqrt` on nonnegatives,
`tanh`) are threaded as explicit parameters; no claim depends on them. -/

inductive Fl where
  | fin (q : ℚ)
  | inf
  | ninf
  | nan
deriving DecidableEq, Repr

def Fl.isFin : Fl → Bool
  | .fin _ => true
  | _ => false

def flAdd : Fl → Fl → Fl
  | .fin a, .fin b => .fin (a + b)
  | .fin _, .inf => .inf
  | .fin _, .ninf => .ninf
  | .inf, .fin _ => .inf
  | .ninf, .fin _ => .ninf
  | .inf, .inf => .inf
  | .ninf, .ninf => .ninf
  | .inf, .ninf => .nan
  | .ninf, .inf => .nan
  | _, _ => .nan

def flSub : Fl → Fl → Fl
  | .fin a, .fin b => .fin (a - b)
  | .fin _, .inf => .ninf
  | .fin _, .ninf => .inf
  | .inf, .fin _ => .inf
  | .ninf, .fin _ => .ninf
  | .inf, .inf => .nan
  | .ninf, .ninf => .nan
  | .inf, .ninf => .inf
  | .ninf, .inf => .ninf
  | _, _ => .nan

def flMul : Fl → Fl → Fl
  | .fin a, .fin b => .fin (a * b)
  | .fin a, .inf => if a = 0 then .nan else if 0 < a then .inf else .ninf
  | .fin a, .ninf => if a = 0 then .nan else if 0 < a then .ninf else .inf
  | .inf, .fin b => if b = 0 then .nan else if 0 < b then .inf else .ninf
  | .ninf, .fin b => if b = 0 then .nan else if 0 < b then .ninf else .inf
  | .inf, .inf => .inf
  | .inf, .ninf => .ninf
  | .ninf, .inf => .ninf
  | .ninf, .ninf => .inf
  | _, _ => .nan

def flDiv : Fl → Fl → Fl
  | .fin a, .fin b =>
    if b = 0 then (if a = 0 then .nan else if 0 < a then .inf else .ninf) else .fin (a / b)
  | .fin _, .inf => .fin 0
  | .fin _, .ninf => .fin 0
  | .inf, .fin b => if 0 ≤ b then .inf else .ninf
  | .ninf, .fin b => if 0 ≤ b then .ninf else .inf
  | _, _ => .nan

/-- `torch.log`: `nan` on negatives, `-inf` at zero, finite (given by the
parameter `logPos`) on positives. -/
def flLog (logPos : ℚ → ℚ) : Fl → Fl
  | .fin q => if q < 0 then .nan else if q = 0 then .ninf else .fin (logPos q)
  | .inf => .inf
  | _ => .nan

/-- `torch.sqrt`: `nan` on negatives, finite (given by `sqrtPos`) on
nonnegatives. -/
def flSqrt (sqrtPos : ℚ → ℚ) : Fl → Fl
  | .fin q => if q < 0 then .nan else .fin (sqrtPos q)
  | .inf => .inf
  | _ => .nan

def flAbs : Fl → Fl
  | .fin q => .fin |q|
  | .nan => .nan
  | _ => .inf

def flTanh (tanhF : ℚ → ℚ) : Fl → Fl
  | .fin q => .fin (tanhF q)
  | .inf => .fin 1
  | .ninf => .fin (-1)
  | .nan => .nan

/-- `nn.MSELoss(reduction="sum")` applied to two equal-shape tensors
flattened to lists: the sum of squared differences. -/
def mseSumFl (xs ys : List Fl) : Fl :=
  ((xs.zip ys).map (fun p => flMul (flSub p.1 p.2) (flSub p.1 p.2))).foldl flAdd (.fin 0)

/-- The `l2_reg` accumulation (e.g. lines 189–192): fold `W.norm(2)` over
the model's parameter tensors.  The source seeds the fold with an
uninitialized 1-element tensor, a placeholder modelled as 0 (spec §9
likewise reads it as a zero-initialized scalar).  Each parameter tensor
is a flattened list of rationals; its 2-norm is finite. -/
def l2reg (sqrtPos : ℚ → ℚ) (params : List (List ℚ)) : Fl :=
  params.foldl (fun acc w => flAdd acc (.fin (sqrtPos ((w.map (fun x => x * x)).sum)))) (.fin 0)

/-- Python `int(q)` truncates toward zero, matching Lean's `Int` division
of numerator by denominator. -/
def pyTrunc (q : ℚ) : ℤ := q.num / q.den

/-- `torch.cat([idx.repeat(int(idx)) for idx in num_atoms])` (line 195):
each structure's atom count repeated that many times, one entry per
atom. -/
def atomCountPerAtom (num_atoms : List ℚ) : List ℚ :=
  num_atoms.flatMap (fun c => List.replicate (pyTrunc c).toNat c)

inductive LossErr where
  | shapeMismatch
  | attributeError
  | numericDomainError
deriving DecidableEq, Repr

/-- Per-atom force normalization shared by the three losses (e.g. lines
195–200): `sqrt` of the expanded atom counts, then a broadcast division
of each `Q × 3` force row by its per-atom normalizer.  A row-count
mismatch is the broadcast failure `torch` raises. -/
def normalizeForces (sqrtPos : ℚ → ℚ) (num_atoms : List ℚ) (f : Mat) :
    Except LossErr (List Fl) :=
  let nafS := (atomCountPerAtom num_atoms).map (fun c => flSqrt sqrtPos (.fin c))
  if f.length = nafS.length then
    .ok (((f.zip nafS).map (fun p => p.1.map (fun x => flDiv (.fin x) p.2))).flatten)
  else .error .shapeMismatch

/-- `CustomLoss.forward` (lines 176–207).  `alpha` is the force
coefficient; `model` is the Composite Model argument whose parameter
tensors feed `l2_reg` — `none` models the default `model=None`, on which
`model.parameters()` raises an `AttributeError`.  `reg_lambda` is the
hardwired 0 of line 190. -/
def CustomLoss.forward (sqrtPos : ℚ → ℚ) (alpha : ℚ)
    (energy_pred energy_targets num_atoms : List ℚ)
    (force_pred force_targets : Option Mat)
    (model : Option (List (List ℚ))) : Except LossErr Fl :=
  if energy_pred.length = num_atoms.length ∧ energy_targets.length = num_atoms.length then
    let energy_per_atom := (energy_pred.zip num_atoms).map (fun p => flDiv (.fin p.1) (.fin p.2))
    let targets_per_atom :=
      (energy_targets.zip num_atoms).map (fun p => flDiv (.fin p.1) (.fin p.2))
    let energy_loss := mseSumFl energy_per_atom targets_per_atom
    match model with
    | none => .error .attributeError
    | some params =>
      let l2 := l2reg sqrtPos params
      let reg_lambda : ℚ := 0
      if 0 < alpha then
        match force_pred, force_targets with
        | some fp, some ft => do
          let fpn ← normalizeForces sqrtPos num_atoms fp
          let ftn ← normalizeForces sqrtPos num_atoms ft
          let force_loss := flMul (.fin (alpha / 3)) (mseSumFl fpn ftn)
          pure (flAdd (flMul (.fin (1 / 2)) (flAdd energy_loss force_loss))
            (flMul (.fin reg_lambda) l2))
        | _, _ => .error .attributeError
      else
        .ok (flAdd (flMul (.fin (1 / 2)) energy_loss) (flMul (.fin reg_lambda) l2))
  else .error .shapeMismatch

/-- `MSLELoss.forward` (lines 218–250): as `CustomLoss` but with
`torch.log` applied to every per-atom average (energy and force), and no
regularization term in the returned loss (`l2_reg` is computed on lines
231–233 and then unused). -/
def MSLELoss.forward (logPos sqrtPos : ℚ → ℚ) (alpha : ℚ)
    (energy_pred energy_targets num_atoms : List ℚ)
    (force_pred force_targets : Option Mat)
    (model : Option (List (List ℚ))) : Except LossErr Fl :=
  if energy_pred.length = num_atoms.length ∧ energy_targets.length = num_atoms.length then
    let energy_per_atom :=
      (energy_pred.zip num_atoms).map (fun p => flLog logPos (flDiv (.fin p.1) (.fin p.2)))
    let targets_per_atom :=
      (energy_targets.zip num_atoms).map (fun p => flLog logPos (flDiv (.fin p.1) (.fin p.2)))
    let energy_loss := mseSumFl energy_per_atom targets_per_atom
    match model with
    | none => .error .attributeError
    | some params =>
      let _l2 := l2reg sqrtPos params
      if 0 < alpha then
        match force_pred, force_targets with
        | some fp, some ft => do
          let fpn ← normalizeForces sqrtPos num_atoms fp
          let ftn ← normalizeForces sqrtPos num_atoms ft
          let force_loss := flMul (.fin (alpha / 3))
            (mseSumFl (fpn.map (flLog logPos)) (ftn.map (flLog logPos)))
          pure (flMul (.fin (1 / 2)) (flAdd energy_loss force_loss))
        | _, _ => .error .attributeError
      else
        .ok (flMul (.fin (1 / 2)) energy_loss)
  else .error .shapeMismatch

/-- `TanhLoss.forward` (lines 261–289): plain per-atom energy averages;
when `alpha > 0` the force residual is `sum(tanh(|normalized pred −
normalized target|))` and the result is `energy_loss + force_loss` with
no 0.5 factor; when `alpha ≤ 0` the bare `energy_loss` is returned.
`l2_reg` (lines 274–276) is computed and unused. -/
def TanhLoss.forward (tanhF sqrtPos : ℚ → ℚ) (alpha : ℚ)
    (energy_pred energy_targets num_atoms : List ℚ)
    (force_pred force_targets : Option Mat)
    (model : Option (List (List ℚ))) : Except LossErr Fl :=
  if energy_pred.length = num_atoms.length ∧ energy_targets.length = num_atoms.length then
    let energy_per_atom := (energy_pred.zip num_atoms).map (fun p => flDiv (.fin p.1) (.fin p.2))
    let targets_per_atom :=
      (energy_targets.zip num_atoms).map (fun p => flDiv (.fin p.1) (.fin p.2))
    let energy_loss := mseSumFl energy_per_atom targets_per_atom
    match model with
    | none => .error .attributeError
    | some params =>
      let _l2 := l2reg sqrtPos params
      if 0 < alpha then
        match force_pred, force_targets with
        | some fp, some ft => do
          let fpn ← normalizeForces sqrtPos num_atoms fp
          let ftn ← normalizeForces sqrtPos num_atoms ft
          let force_loss :=
            ((fpn.zip ftn).map (fun p => flTanh tanhF (flAbs (flSub p.1 p.2)))).foldl
              flAdd (.fin 0)
          pure (flAdd energy_loss force_loss)
        | _, _ => .error .attributeError
      else
        .ok energy_loss
  else .error .shapeMismatch

/-! ## Basic lemmas about the tensor primitives -/

theorem getD_replicate_zero (n s : ℕ) : (List.replicate n (0 : ℚ)).getD s 0 = 0 := by
  induction n generalizing s with
  | zero => simp [List.getD]
  | succ k ih =>
    cases s with
    | zero => simp [List.replicate]
    | succ t => simp [List.replicate, ih t]

theorem indexAdd?_length {base out : List ℚ} {idxs : List ℕ} {vals : List ℚ}
    (h : indexAdd? base idxs vals = some out) : out.length = base.length := by
  induction idxs generalizing base vals with
  | nil =>
    cases vals with
    | nil => simp [indexAdd?] at h; simp [h]
    | cons v vs => simp [indexAdd?] at h
  | cons i is ih =>
    cases vals with
    | nil => simp [indexAdd?] at h
    | cons v vs =>
      simp only [indexAdd?] at h
      split at h
      · exact (ih h).trans (List.length_set ..)
      · exact absurd h (by simp)

theorem getD_set_self {l : List ℚ} {i : ℕ} {a : ℚ} (h : i < l.length) :
    (l.set i a).getD i 0 = a := by
  simp [List.getD_eq_getElem?_getD, List.getElem?_set_self h]

theorem getD_set_ne {l : List ℚ} {i j : ℕ} {a : ℚ} (h : i ≠ j) :
    (l.set i a).getD j 0 = l.getD j 0 := by
  simp [List.getD_eq_getElem?_getD, List.getElem?_set_ne h]

/-- Characterization of the scatter-add: the resulting row `s` is the base
row plus the sum of the scattered values whose index equals `s` —
accumulation, never overwrite. -/
theorem indexAdd?_getD {base out : List ℚ} {idxs : List ℕ} {vals : List ℚ}
    (h : indexAdd? base idxs vals = some out) (s : ℕ) :
    out.getD s 0 = base.getD s 0 +
      (((idxs.zip vals).filter (fun p => p.1 = s)).map Prod.snd).sum := by
  induction idxs generalizing base vals with
  | nil =>
    cases vals with
    | nil => simp [indexAdd?] at h; simp [h]
    | cons v vs => simp [indexAdd?] at h
  | cons i is ih =>
    cases vals with
    | nil => simp [indexAdd?] at h
    | cons v vs =>
      simp only [indexAdd?] at h
      split at h
      case isTrue hi =>
        have := ih h
        by_cases hs : i = s
        · subst hs
          rw [this, getD_set_self hi]
          simp [List.filter_cons]
          ring
        · rw [this, getD_set_ne hs]
          simp [List.filter_cons, hs]
      case isFalse => exact absurd h (by simp)

theorem indexAdd?_isSome {base : List ℚ} {idxs : List ℕ} {vals : List ℚ} :
    (indexAdd? base idxs vals).isSome = true ↔
      idxs.length = vals.length ∧ ∀ i ∈ idxs, i < base.length := by
  induction idxs generalizing base vals with
  | nil =>
    cases vals with
    | nil => simp [indexAdd?]
    | cons v vs => simp [indexAdd?]
  | cons i is ih =>
    cases vals with
    | nil => simp [indexAdd?]
    | cons v vs =>
      simp only [indexAdd?]
      split
      case isTrue hi =>
        rw [ih]
        simp only [List.length_set, List.length_cons, List.mem_cons]
        constructor
        · rintro ⟨h1, h2⟩
          exact ⟨by omega, fun j hj => hj.elim (fun e => e ▸ hi) (h2 j)⟩
        · rintro ⟨h1, h2⟩
          exact ⟨by omega, fun j hj => h2 j (Or.inr hj)⟩
      case isFalse hi =>
        simp only [Option.isSome_none, Bool.false_eq_true, false_iff, not_and]
        intro _ hall
        exact hi (hall i (List.mem_cons_self i is))

/-! ## Characterizing the element loop -/

/-- Contribution of the element `e`'s group to `energy_pred` row `s`: the
sum of the sub-network scalar outputs of the atoms of `e` owned by
structure `s` (zero for an element absent from the batch, which the loop
would have failed on anyway). -/
def elemContrib (σ : ℚ → ℚ) (models : String → List DenseL)
    (input_data : List (String × ElemData)) (e : String) (s : ℕ) : ℚ :=
  match lookupElem input_data e with
  | none => 0
  | some ed =>
    (((ed.cidx.zip (ed.inputs.map (mlpOut σ (models e)))).filter
      (fun p => p.1 = s)).map Prod.snd).sum

/-- Contribution of one batch entry (element group) to `energy_pred` row
`s`, written directly on the entry: the sum, over the atoms of the group
whose owner index is `s`, of the owning element's sub-network scalar
output on that atom's descriptor vector. -/
def atomSumEntry (σ : ℚ → ℚ) (models : String → List DenseL)
    (p : String × ElemData) (s : ℕ) : ℚ :=
  (((p.2.cidx.zip (p.2.inputs.map (mlpOut σ (models p.1)))).filter
    (fun q => q.1 = s)).map Prod.snd).sum

/-- The owner indices the loop appends for element `e`. -/
def elemIdx (input_data : List (String × ElemData)) (e : String) : List ℕ :=
  match lookupElem input_data e with
  | none => []
  | some ed => ed.cidx

/-- The gradient rows the loop appends for element `e`. -/
def elemGradRows (σ σd : ℚ → ℚ) (models : String → List DenseL)
    (input_data : List (String × ElemData)) (e : String) : List Vec :=
  match lookupElem input_data e with
  | none => []
  | some ed => ed.inputs.map (mlpGradRow σ σd (models e))

theorem fwdLoop_energy_length {σ σd : ℚ → ℚ} {models : String → List DenseL} {ft : Bool}
    {input : List (String × ElemData)} {elems : List String} {st st' : FwdState}
    (h : fwdLoop σ σd models ft input elems st = some st') :
    st'.energy.length = st.energy.length := by
  induction elems generalizing st with
  | nil => simp [fwdLoop] at h; simp [h]
  | cons e rest ih =>
    simp only [fwdLoop, Option.bind_eq_bind] at h
    rw [Option.bind_eq_some] at h
    obtain ⟨ed, hl, h⟩ := h
    rw [Option.bind_eq_some] at h
    obtain ⟨energy, hA, h⟩ := h
    have hlen := indexAdd?_length hA
    have := ih h
    cases ft <;> simp_all

theorem fwdLoop_energy_getD {σ σd : ℚ → ℚ} {models : String → List DenseL} {ft : Bool}
    {input : List (String × ElemData)} {elems : List String} {st st' : FwdState}
    (h : fwdLoop σ σd models ft input elems st = some st') (s : ℕ) :
    st'.energy.getD s 0 = st.energy.getD s 0 +
      (elems.map (fun e => elemContrib σ models input e s)).sum := by
  induction elems generalizing st with
  | nil => simp [fwdLoop] at h; simp [h]
  | cons e rest ih =>
    simp only [fwdLoop, Option.bind_eq_bind] at h
    rw [Option.bind_eq_some] at h
    obtain ⟨ed, hl, h⟩ := h
    rw [Option.bind_eq_some] at h
    obtain ⟨energy, hA, h⟩ := h
    have hstep := indexAdd?_getD hA s
    have htail := ih h
    have hmid : (if ft then
        { energy := energy, dE := st.dE ++ ed.inputs.map (mlpGradRow σ σd (models e)),
          idx := st.idx ++ ed.cidx }
      else { energy := energy, dE := st.dE, idx := st.idx } : FwdState).energy = energy := by
      cases ft <;> rfl
    rw [hmid] at htail
    rw [htail, hstep]
    have hc : elemContrib σ models input e s =
        (((ed.cidx.zip (ed.inputs.map (mlpOut σ (models e)))).filter
          (fun p => p.1 = s)).map Prod.snd).sum := by
      simp [elemContrib, hl]
    simp only [List.map_cons, List.sum_cons, hc]
    ring

theorem fwdLoop_isSome {σ σd : ℚ → ℚ} {models : String → List DenseL} {ft : Bool}
    {input : List (String × ElemData)} {elems : List String} {st : FwdState} :
    (fwdLoop σ σd models ft input elems st).isSome = true ↔
      ∀ e ∈ elems, ∃ ed, lookupElem input e = some ed ∧
        ed.cidx.length = ed.inputs.length ∧ ∀ i ∈ ed.cidx, i < st.energy.length := by
  induction elems generalizing st with
  | nil => simp [fwdLoop]
  | cons e rest ih =>
    simp only [fwdLoop, Option.bind_eq_bind]
    cases hl : lookupElem input e with
    | none =>
      simp only [Option.none_bind, Option.isSome_none, Bool.false_eq_true, false_iff, not_forall]
      refine ⟨e, List.mem_cons_self e rest, ?_⟩
      rintro ⟨ed, hed, -⟩
      simp [hl] at hed
    | some ed =>
      simp only [Option.some_bind]
      cases hA : indexAdd? st.energy ed.cidx (ed.inputs.map (mlpOut σ (models e))) with
      | none =>
        simp only [Option.none_bind, Option.isSome_none, Bool.false_eq_true, false_iff,
          not_forall]
        refine ⟨e, List.mem_cons_self e rest, ?_⟩
        rintro ⟨ed', hed', hlen, hin⟩
        rw [hl] at hed'
        injection hed' with hed'
        subst hed'
        have : (indexAdd? st.energy ed.cidx (ed.inputs.map (mlpOut σ (models e)))).isSome
            = true := by
          rw [indexAdd?_isSome]
          exact ⟨by simpa using hlen, hin⟩
        simp [hA] at this
      | some energy =>
        simp only [Option.some_bind]
        have hmid : (if ft then
            { energy := energy, dE := st.dE ++ ed.inputs.map (mlpGradRow σ σd (models e)),
              idx := st.idx ++ ed.cidx }
          else { energy := energy, dE := st.dE, idx := st.idx } : FwdState).energy
            = energy := by
          cases ft <;> rfl
        rw [ih]
        have hAs : ed.cidx.length = (ed.inputs.map (mlpOut σ (models e))).length ∧
            ∀ i ∈ ed.cidx, i < st.energy.length := by
          rw [← indexAdd?_isSome]
          simp [hA]
        have hlen : energy.length = st.energy.length := indexAdd?_length hA
        constructor
        · intro hall
          intro e' he'
          rcases List.mem_cons.mp he' with he' | he'
          · subst he'
            exact ⟨ed, hl, by simpa using hAs.1, hAs.2⟩
          · obtain ⟨ed', h1, h2, h3⟩ := hall e' he'
            refine ⟨ed', h1, h2, ?_⟩
            intro i hi
            have := h3 i hi
            rw [hmid, hlen] at this
            exact this
        · intro hall
          intro e' he'
          obtain ⟨ed', h1, h2, h3⟩ := hall e' (List.mem_cons.mpr (Or.inr he'))
          refine ⟨ed', h1, h2, ?_⟩
          intro i hi
          rw [hmid, hlen]
          exact h3 i hi

theorem fwdLoop_dE_idx {σ σd : ℚ → ℚ} {models : String → List DenseL}
    {input : List (String × ElemData)} {elems : List String} {st st' : FwdState}
    (h : fwdLoop σ σd models true input elems st = some st') :
    st'.dE = st.dE ++ (elems.map (elemGradRows σ σd models input)).flatten ∧
    st'.idx = st.idx ++ (elems.map (elemIdx input)).flatten := by
  induction elems generalizing st with
  | nil => simp [fwdLoop] at h; simp [h]
  | cons e rest ih =>
    simp only [fwdLoop, Option.bind_eq_bind] at h
    rw [Option.bind_eq_some] at h
    obtain ⟨ed, hl, h⟩ := h
    rw [Option.bind_eq_some] at h
    obtain ⟨energy, hA, h⟩ := h
    obtain ⟨h1, h2⟩ := ih h
    simp only [List.map_cons, List.flatten_cons] at *
    constructor
    · rw [h1]
      simp [elemGradRows, hl, List.append_assoc]
    · rw [h2]
      simp [elemIdx, hl, List.append_assoc]

theorem lookupElem_mem {input : List (String × ElemData)} {e : String} {ed : ElemData}
    (h : lookupElem input e = some ed) : (e, ed) ∈ input := by
  unfold lookupElem at h
  cases hf : input.find? (fun p => p.1 = e) with
  | none => rw [hf] at h; simp at h
  | some p =>
    rw [hf] at h
    simp at h
    have hm := List.mem_of_find?_eq_some hf
    have hp : p.1 = e := by simpa using List.find?_some hf
    obtain ⟨p1, p2⟩ := p
    simp only at hp h
    subst hp
    subst h
    exact hm

theorem lookupElem_of_mem {input : List (String × ElemData)} {e : String} {ed : ElemData}
    (hmem : (e, ed) ∈ input) (hnd : (input.map Prod.fst).Nodup) :
    lookupElem input e = some ed := by
  induction input with
  | nil => simp at hmem
  | cons p rest ih =>
    obtain ⟨k, d⟩ := p
    simp only [List.map_cons, List.nodup_cons] at hnd
    rcases List.mem_cons.mp hmem with he | he
    · injection he with h1 h2
      subst h1; subst h2
      simp [lookupElem, List.find?_cons]
    · have hke : k ≠ e := by
        rintro rfl
        exact hnd.1 (List.mem_map.mpr ⟨(k, ed), he, rfl⟩)
      have := ih he hnd.2
      unfold lookupElem at this ⊢
      rw [List.find?_cons_of_neg]
      · exact this
      · simp [hke]

/-- Both branches of `FullNN.forward` obtain `energy_pred` from the
element loop started at the zero column. -/
theorem forward_energy_loop {σ σd : ℚ → ℚ} {M : FullNN} {input : List (String × ElemData)}
    {bs : ℕ} {fp : Option Mat} {energy : List ℚ} {f : Option Mat}
    (h : FullNN.forward σ σd M input bs fp = some (energy, f)) :
    ∃ st, fwdLoop σ σd M.models M.forcetraining input M.unique_atoms
      { energy := List.replicate bs 0, dE := [], idx := [] } = some st ∧
      st.energy = energy := by
  unfold FullNN.forward at h
  cases hft : M.forcetraining with
  | true =>
    rw [hft] at h
    rw [if_pos rfl] at h
    simp only [Option.bind_eq_bind] at h
    rw [Option.bind_eq_some] at h
    obtain ⟨fpm, hfp, h⟩ := h
    rw [Option.bind_eq_some] at h
    obtain ⟨st, hloop, h⟩ := h
    rw [Option.bind_eq_some] at h
    obtain ⟨force, hforce, h⟩ := h
    simp only [Option.pure_def, Option.some.injEq, Prod.mk.injEq] at h
    exact ⟨st, hloop, h.1⟩
  | false =>
    rw [hft] at h
    rw [if_neg (by decide)] at h
    simp only [Option.bind_eq_bind] at h
    rw [Option.bind_eq_some] at h
    obtain ⟨st, hloop, h⟩ := h
    simp only [Option.pure_def, Option.some.injEq, Prod.mk.injEq] at h
    exact ⟨st, hloop, h.1⟩

/-- Claim C2: for every structure index `s`, the returned `energy_pred`
row `s` is the sum, over all atoms in the batch whose owner index is `s`,
of the owning element's sub-network scalar output on that atom's
descriptor (accumulation across atoms and elements, not overwrite).
The batch is well formed: its element keys are exactly the model's
`unique_atoms` (up to order) and are duplicate-free. -/
theorem amptorch_C2 (σ σd : ℚ → ℚ) (M : FullNN) (input : List (String × ElemData))
    (bs : ℕ) (fp : Option Mat) (energy : List ℚ) (f : Option Mat)
    (hok : FullNN.forward σ σd M input bs fp = some (energy, f))
    (hperm : (input.map Prod.fst).Perm M.unique_atoms)
    (hnd : M.unique_atoms.Nodup) (s : ℕ) :
    energy.getD s 0 = (input.map (fun p => atomSumEntry σ M.models p s)).sum := by
  obtain ⟨st, hloop, hE⟩ := forward_energy_loop hok
  have hchar := fwdLoop_energy_getD hloop s
  rw [hE] at hchar
  simp only [getD_replicate_zero, zero_add] at hchar
  rw [hchar]
  have hkeysnd : (input.map Prod.fst).Nodup := hperm.symm.nodup hnd
  have hsum : (M.unique_atoms.map (fun e => elemContrib σ M.models input e s)).sum =
      ((input.map Prod.fst).map (fun e => elemContrib σ M.models input e s)).sum :=
    ((hperm.map (fun e => elemContrib σ M.models input e s)).sum_eq).symm
  rw [hsum, List.map_map]
  congr 1
  apply List.map_congr_left
  intro p hp
  obtain ⟨k, d⟩ := p
  have hl : lookupElem input k = some d := lookupElem_of_mem hp hkeysnd
  simp [Function.comp, elemContrib, hl, atomSumEntry]

/-- Claim C10: `energy_pred` has exactly `batch_size` rows (the source's
`batch_size × 1` zero tensor, preserved by `index_add_`), and a row whose
index is not the owner index of any atom in any element group of the
batch remains exactly 0. -/
theorem amptorch_C10 (σ σd : ℚ → ℚ) (M : FullNN) (input : List (String × ElemData))
    (bs : ℕ) (fp : Option Mat) (energy : List ℚ) (f : Option Mat)
    (hok : FullNN.forward σ σd M input bs fp = some (energy, f)) :
    energy.length = bs ∧
    ∀ s : ℕ, (∀ p ∈ input, s ∉ p.2.cidx) → energy.getD s 0 = 0 := by
  obtain ⟨st, hloop, hE⟩ := forward_energy_loop hok
  constructor
  · rw [← hE]
    have := fwdLoop_energy_length hloop
    simpa using this
  · intro s hs
    have hchar := fwdLoop_energy_getD hloop s
    rw [hE] at hchar
    simp only [getD_replicate_zero, zero_add] at hchar
    rw [hchar]
    apply List.sum_eq_zero
    intro x hx
    obtain ⟨e, _, hex⟩ := List.mem_map.mp hx
    rw [← hex]
    unfold elemContrib
    cases hl : lookupElem input e with
    | none => rfl
    | some ed =>
      have hmem := lookupElem_mem hl
      have hnotin := hs (e, ed) hmem
      simp only
      have : (ed.cidx.zip (ed.inputs.map (mlpOut σ (M.models e)))).filter
          (fun p => decide (p.1 = s)) = [] := by
        apply List.filter_eq_nil_iff.mpr
        intro q hq
        have := (List.of_mem_zip hq).1
        simp only [decide_eq_true_eq]
        rintro rfl
        exact hnotin this
      rw [this]
      simp

/-! ## The owner-index reorder (NN_model.py lines 148–151) -/

theorem trM_outerMap {α β γ : Type} (d : γ) (x : α) (xs : List α) (cols : List β)
    (f : α → β → γ) :
    trM d ((x :: xs).map (fun z => cols.map (f z))) =
      cols.map (fun u => (x :: xs).map (fun z => f z u)) := by
  induction cols with
  | nil => simp [trM]
  | cons u us ih =>
    unfold trM at ih ⊢
    simp only [List.map_cons, List.headD_cons, List.length_cons, List.length_map] at ih ⊢
    rw [List.range_succ_eq_map]
    simp only [List.map_cons, List.map_map]
    congr 1
    rw [← ih]
    apply List.map_congr_left
    intro j _
    simp [Function.comp, List.getD_cons_succ, List.map_map]

theorem trM_booleanMat (idx : List ℕ) :
    trM false (booleanMat idx) =
      (uniqueSorted idx).map (fun u => idx.map (fun x => decide (x = u))) := by
  cases idx with
  | nil => simp [trM, booleanMat, uniqueSorted, List.insertionSort]
  | cons i is =>
    unfold booleanMat
    exact trM_outerMap false i is (uniqueSorted (i :: is)) (fun x u => decide (x = u))

theorem truePosIdx_map_decide (idx : List ℕ) (u : ℕ) :
    truePosIdx (idx.map (fun x => decide (x = u))) =
      (List.range idx.length).filter (fun j => decide (idx.getD j 0 = u)) := by
  unfold truePosIdx
  rw [List.length_map]
  apply List.filter_congr
  intro j hj
  have hjlt : j < idx.length := List.mem_range.mp hj
  have hjm : j < (idx.map (fun x => decide (x = u))).length := by simpa using hjlt
  rw [List.getD_eq_getElem _ false hjm, List.getElem_map, List.getD_eq_getElem idx 0 hjlt]

/-- The reorder index list, rewritten by unique owner value: for each
unique owner-index value in ascending order, the positions (in arrival
order) of the gradient rows carrying that owner value. -/
theorem orderedIdx_eq_flatMap (idx : List ℕ) :
    orderedIdx idx = (uniqueSorted idx).flatMap
      (fun u => (List.range idx.length).filter (fun j => decide (idx.getD j 0 = u))) := by
  unfold orderedIdx
  rw [trM_booleanMat, List.flatMap_map]
  exact List.flatMap_congr (fun u _ => truePosIdx_map_decide idx u)

theorem mem_orderedIdx_lt {idx : List ℕ} {j : ℕ} (h : j ∈ orderedIdx idx) :
    j < idx.length := by
  rw [orderedIdx_eq_flatMap] at h
  obtain ⟨u, _, hj⟩ := List.mem_flatMap.mp h
  exact List.mem_range.mp (List.mem_of_mem_filter hj)

theorem uniqueSorted_nodup (idx : List ℕ) : (uniqueSorted idx).Nodup :=
  ((List.perm_insertionSort (· ≤ ·) idx.dedup).nodup_iff).mpr (List.nodup_dedup idx)

theorem mem_uniqueSorted {idx : List ℕ} {u : ℕ} : u ∈ uniqueSorted idx ↔ u ∈ idx := by
  unfold uniqueSorted
  rw [(List.perm_insertionSort (· ≤ ·) idx.dedup).mem_iff, List.mem_dedup]

theorem sum_map_single_hit {us : List ℕ} {a : ℕ} (hnd : us.Nodup) (hmem : a ∈ us)
    (c : ℕ → ℕ) (h0 : ∀ u ∈ us, u ≠ a → c u = 0) :
    (us.map c).sum = c a := by
  induction us with
  | nil => simp at hmem
  | cons u rest ih =>
    simp only [List.nodup_cons] at hnd
    rcases List.mem_cons.mp hmem with rfl | hmem'
    · simp only [List.map_cons, List.sum_cons]
      have : ∀ x ∈ rest.map c, x = 0 := by
        intro x hx
        obtain ⟨v, hv, rfl⟩ := List.mem_map.mp hx
        exact h0 v (List.mem_cons_of_mem _ hv) (fun hva => hnd.1 (hva ▸ hv))
      rw [List.sum_eq_zero this]
      simp
    · simp only [List.map_cons, List.sum_cons]
      rw [h0 u (List.mem_cons_self u rest) (fun hua => by subst hua; exact hnd.1 hmem'),
        ih hnd.2 hmem' (fun v hv => h0 v (List.mem_cons_of_mem _ hv))]
      simp

theorem count_flatMap_eq_sum (j : ℕ) (us : List ℕ) (f : ℕ → List ℕ) :
    List.count j (us.flatMap f) = (us.map (fun u => List.count j (f u))).sum := by
  induction us with
  | nil => simp
  | cons u rest ih => simp [List.flatMap_cons, List.count_append, ih]

/-- The reorder indices are a permutation of all row positions: every
gradient row is selected exactly once. -/
theorem orderedIdx_perm (idx : List ℕ) : (orderedIdx idx).Perm (List.range idx.length) := by
  rw [List.perm_iff_count]
  intro j
  rw [orderedIdx_eq_flatMap, count_flatMap_eq_sum]
  by_cases hjn : j < idx.length
  · have hmemj : idx.getD j 0 ∈ idx := by
      rw [List.getD_eq_getElem idx 0 hjn]
      exact List.getElem_mem hjn
    have hmemu : idx.getD j 0 ∈ uniqueSorted idx := mem_uniqueSorted.mpr hmemj
    have hcr : List.count j (List.range idx.length) = 1 :=
      List.count_eq_one_of_mem (List.nodup_range _) (List.mem_range.mpr hjn)
    rw [hcr]
    rw [sum_map_single_hit (uniqueSorted_nodup idx) hmemu
      (fun u => List.count j ((List.range idx.length).filter
        (fun j' => decide (idx.getD j' 0 = u))))]
    · rw [List.count_filter (by simp), hcr]
    · intro u _ hne
      apply List.count_eq_zero_of_not_mem
      intro hmem
      have := List.of_mem_filter hmem
      simp only [decide_eq_true_eq] at this
      exact hne (this ▸ rfl)
  · rw [List.count_eq_zero_of_not_mem (by simpa using hjn)]
    apply List.sum_eq_zero
    intro x hx
    obtain ⟨u, _, rfl⟩ := List.mem_map.mp hx
    apply List.count_eq_zero_of_not_mem
    intro hmem
    exact hjn (List.mem_range.mp (List.mem_of_mem_filter hmem))

/-- Selecting rows at the positions carrying owner value `u` (in position
order) equals filtering the (row, owner) pairs by owner `u` and keeping
the rows, in arrival order. -/
theorem select_filter_zip {β : Type} (dflt : β) (u : ℕ) :
    ∀ (idx : List ℕ) (rows : List β), rows.length = idx.length →
    ((List.range idx.length).filter (fun j => decide (idx.getD j 0 = u))).map
      (fun j => rows.getD j dflt) =
    ((rows.zip idx).filter (fun p => decide (p.2 = u))).map Prod.fst := by
  intro idx
  induction idx with
  | nil =>
    intro rows h
    have : rows = [] := List.length_eq_zero.mp h
    subst this
    simp
  | cons i is ih =>
    intro rows h
    cases rows with
    | nil => simp at h
    | cons r rs =>
      simp only [List.length_cons, Nat.succ.injEq] at h
      have htail := ih rs h
      have hsucc : List.filter ((fun j => decide ((i :: is).getD j 0 = u)) ∘ Nat.succ)
          (List.range is.length) =
          List.filter (fun j => decide (is.getD j 0 = u)) (List.range is.length) := by
        apply List.filter_congr
        intro j _
        simp [Function.comp, List.getD_cons_succ]
      rw [List.length_cons, List.range_succ_eq_map, List.zip_cons_cons]
      simp only [List.filter_cons, List.getD_cons_zero]
      by_cases hiu : i = u
      · rw [if_pos (by simpa using hiu), if_pos (by simpa using hiu)]
        simp only [List.map_cons, List.getD_cons_zero, List.filter_map, hsucc, List.map_map]
        congr 1
      · rw [if_neg (by simpa using hiu), if_neg (by simpa using hiu)]
        simp only [List.filter_map, hsucc, List.map_map]
        rw [← htail]
        apply List.map_congr_left
        intro j _
        simp [Function.comp, List.getD_cons_succ]

/-- Claim C3: the gradient-row reorder of lines 148–151.  `index_select`
with the `nonzero`-derived index list is defined (every position is in
range) and produces, for each distinct owner-index value in ascending
order, the gradient rows recorded with that owner value in their original
arrival (element-processing) order, concatenated. -/
theorem amptorch_C3 (dE : List Vec) (idx : List ℕ) (h : dE.length = idx.length) :
    selectRows? dE (orderedIdx idx) =
      some ((uniqueSorted idx).flatMap
        (fun u => ((dE.zip idx).filter (fun p => p.2 = u)).map Prod.fst)) := by
  have hall : (orderedIdx idx).all (fun j => j < dE.length) = true := by
    rw [List.all_eq_true]
    intro j hj
    simpa [h] using mem_orderedIdx_lt hj
  unfold selectRows?
  rw [if_pos hall]
  congr 1
  rw [orderedIdx_eq_flatMap, List.map_flatMap]
  exact List.flatMap_congr (fun u _ => select_filter_zip [] u idx dE h)

theorem amptorch_C3_witness :
    selectRows? [[(1 : ℚ)],[2],[3]] (orderedIdx [1,0,1]) =
      some ((uniqueSorted [1,0,1]).flatMap
        (fun u => (([[(1 : ℚ)],[2],[3]].zip [1,0,1]).filter (fun p => p.2 = u)).map
          Prod.fst)) :=
  amptorch_C3 [[(1 : ℚ)],[2],[3]] [1,0,1] (by decide)

/-! ## Shape lemmas for the sparse force product -/

theorem matShape?_of {m : Mat} {r c : ℕ} (hr : m.length = r)
    (hc : ∀ row ∈ m, row.length = c) (hnz : m ≠ [] ∨ (r = 0 ∧ c = 0)) :
    matShape? m = some (r, c) := by
  cases m with
  | nil =>
    rcases hnz with h | ⟨h1, h2⟩
    · exact absurd rfl h
    · simp [matShape?, ← hr, h2]
  | cons row rest =>
    have hrow : row.length = c := hc row (List.mem_cons_self row rest)
    simp only [matShape?]
    rw [if_pos]
    · rw [← hr, hrow]
    · rw [List.all_eq_true]
      intro x hx
      simp [hc x hx, hrow]

theorem matShape?_inv {m : Mat} {r c : ℕ} (h : matShape? m = some (r, c)) :
    m.length = r ∧ ∀ row ∈ m, row.length = c := by
  cases m with
  | nil =>
    simp only [matShape?, Option.some.injEq, Prod.mk.injEq] at h
    simp [← h.1]
  | cons row rest =>
    simp only [matShape?] at h
    split at h
    case isTrue hall =>
      simp only [Option.some.injEq, Prod.mk.injEq] at h
      rw [List.all_eq_true] at hall
      refine ⟨h.1, fun x hx => ?_⟩
      have := hall x hx
      simp only [decide_eq_true_eq] at this
      rw [this, h.2]
    case isFalse => simp at h

theorem matShape?_trM {m : Mat} {r c : ℕ} (h : matShape? m = some (r, c)) (hr : 0 < r)
    (hc0 : 0 < c) : matShape? (trM 0 m) = some (c, r) := by
  obtain ⟨hlen, hrows⟩ := matShape?_inv h
  cases m with
  | nil => simp at hlen; omega
  | cons row rest =>
    have hrow : row.length = c := hrows row (List.mem_cons_self row rest)
    apply matShape?_of
    · simp [trM, hrow]
    · intro x hx
      unfold trM at hx
      obtain ⟨j, _, rfl⟩ := List.mem_map.mp hx
      simp [← hlen]
    · left
      unfold trM
      simp only [List.headD_cons, hrow, ne_eq, List.map_eq_nil_iff, List.range_eq_nil]
      omega

theorem matMul?_eq {a b : Mat} {ra k cb : ℕ} (ha : matShape? a = some (ra, k))
    (hb : matShape? b = some (k, cb)) :
    matMul? a b = some (a.map (fun row => (trM 0 b).map (fun col => dot row col))) := by
  unfold matMul?
  rw [ha, hb]
  simp

theorem matMul?_shape {a b : Mat} {ra k cb : ℕ} (ha : matShape? a = some (ra, k))
    (hb : matShape? b = some (k, cb)) (hk : 0 < k) (hra : 0 < ra) :
    matShape? (a.map (fun row => (trM 0 b).map (fun col => dot row col))) =
      some (ra, cb) := by
  obtain ⟨hbl, hbr⟩ := matShape?_inv hb
  have htrb : (trM 0 b).length = cb := by
    cases b with
    | nil => simp at hbl; omega
    | cons row rest =>
      have := hbr row (List.mem_cons_self row rest)
      simp [trM, this]
  apply matShape?_of
  · simp [(matShape?_inv ha).1]
  · intro x hx
    obtain ⟨row, _, rfl⟩ := List.mem_map.mp hx
    simp [htrb]
  · left
    have := (matShape?_inv ha).1
    simp only [ne_eq, List.map_eq_nil_iff]
    intro hnil
    rw [hnil] at this
    simp at this
    omega

theorem matMul?_inv {a b : Mat} {c : Mat} (h : matMul? a b = some c) :
    ∃ sa sb, matShape? a = some sa ∧ matShape? b = some sb ∧ sa.2 = sb.1 := by
  unfold matMul? at h
  cases hsa : matShape? a with
  | none => rw [hsa] at h; simp at h
  | some sa =>
    rw [hsa] at h
    cases hsb : matShape? b with
    | none => rw [hsb] at h; simp at h
    | some sb =>
      rw [hsb] at h
      refine ⟨sa, sb, rfl, rfl, ?_⟩
      by_contra hne
      simp only [Option.bind_eq_bind, Option.some_bind] at h
      rw [if_neg hne] at h
      simp at h

theorem negMat_rows {m : Mat} {c : ℕ} (hc : ∀ row ∈ m, row.length = c) :
    (negMat m).length = m.length ∧ ∀ row ∈ negMat m, row.length = c := by
  constructor
  · simp [negMat]
  · intro x hx
    obtain ⟨row, hr, rfl⟩ := List.mem_map.mp hx
    simp [hc row hr]

theorem sum_map_const_len {m : Mat} (c : ℕ) (hc : ∀ row ∈ m, row.length = c) :
    m.flatten.length = m.length * c := by
  rw [List.length_flatten]
  induction m with
  | nil => simp
  | cons row rest ih =>
    simp only [List.map_cons, List.sum_cons, List.length_cons]
    rw [hc row (List.mem_cons_self row rest),
      ih (fun x hx => hc x (List.mem_cons_of_mem _ hx))]
    ring

theorem chunks3_shape : ∀ (q : ℕ) (fl : List ℚ), fl.length = 3 * q →
    (chunks3 fl).length = q ∧ ∀ row ∈ chunks3 fl, row.length = 3 := by
  intro q
  induction q with
  | zero =>
    intro fl h
    have : fl = [] := List.length_eq_zero.mp (by omega)
    subst this
    simp [chunks3]
  | succ t ih =>
    intro fl h
    match fl, h with
    | a :: b :: c :: rest, h =>
      simp only [List.length_cons] at h
      have hr : rest.length = 3 * t := by omega
      obtain ⟨ih1, ih2⟩ := ih rest hr
      refine ⟨by simp [chunks3, ih1], ?_⟩
      intro row hrow
      rcases List.mem_cons.mp hrow with rfl | hrow'
      · rfl
      · exact ih2 row hrow'

theorem reshape3?_eq {m : Mat} {q : ℕ} (h : m.flatten.length = 3 * q) (hq : 0 < q) :
    reshape3? m = some (chunks3 m.flatten) ∧
      matShape? (chunks3 m.flatten) = some (q, 3) := by
  constructor
  · unfold reshape3?
    rw [if_pos (by omega)]
  · obtain ⟨h1, h2⟩ := chunks3_shape q m.flatten h
    apply matShape?_of h1 h2
    left
    intro hnil
    rw [hnil] at h1
    simp at h1
    omega

/-- Modelled from the spec's words (§4.3, force reconstruction):
`force_pred = -1 × (SparseForceMap transposed) × (reordered gradient row
transposed), reshaped to (Q, 3)`.  Compared below with what
`FullNN.forward` computes. -/
def specForcePred (spfm : Mat) (gradRow : Vec) : Option Mat := do
  let prod ← matMul? (trM 0 spfm) (trM 0 [gradRow])
  reshape3? (negMat prod)

theorem matShape?_trM_row {row : Vec} (h : 0 < row.length) :
    matShape? (trM 0 [row]) = some (row.length, 1) := by
  apply matShape?_of
  · simp [trM]
  · intro x hx
    unfold trM at hx
    obtain ⟨j, _, rfl⟩ := List.mem_map.mp hx
    simp
  · left
    unfold trM
    simp only [List.headD_cons, ne_eq, List.map_eq_nil_iff, List.range_eq_nil]
    omega

theorem selectRows?_ok {dE : List Vec} {idx : List ℕ} (h : dE.length = idx.length) :
    selectRows? dE (orderedIdx idx) = some ((orderedIdx idx).map (fun j => dE.getD j [])) := by
  unfold selectRows?
  rw [if_pos]
  rw [List.all_eq_true]
  intro j hj
  simpa [h] using mem_orderedIdx_lt hj

/-- With a `SparseForceMap` of shape `(P·Q, 3·Q)` — so that its transpose
is `3Q × PQ` as the source's own comment states — the force block is
defined, matches the spec formula, and returns a `Q × 3` tensor. -/
theorem forceFromGrads_ok {fprimes : Mat} {dE : List Vec} {idx : List ℕ} {P Q : ℕ}
    (hQd : dE.length = Q) (hQi : idx.length = Q) (hP : ∀ r ∈ dE, r.length = P)
    (hshape : matShape? fprimes = some (P * Q, 3 * Q)) (hQ : 0 < Q) (hPp : 0 < P) :
    ∃ F, forceFromGrads fprimes dE idx = some F ∧ matShape? F = some (Q, 3) ∧
      specForcePred fprimes
        (((orderedIdx idx).map (fun j => dE.getD j [])).flatten) = some F := by
  have hsel := @selectRows?_ok dE idx (by omega)
  set sel := (orderedIdx idx).map (fun j => dE.getD j []) with hseldef
  have hsellen : sel.length = Q := by
    rw [hseldef, List.length_map, (orderedIdx_perm idx).length_eq, List.length_range, hQi]
  have hselrows : ∀ r ∈ sel, r.length = P := by
    intro r hr
    rw [hseldef] at hr
    obtain ⟨j, hj, rfl⟩ := List.mem_map.mp hr
    have hjlt : j < dE.length := by
      rw [hQd, ← hQi]
      exact mem_orderedIdx_lt hj
    rw [List.getD_eq_getElem dE [] hjlt]
    exact hP _ (List.getElem_mem hjlt)
  have hrowlen : sel.flatten.length = P * Q := by
    rw [sum_map_const_len _ hselrows, hsellen]
    ring
  have htrf : matShape? (trM 0 fprimes) = some (3 * Q, P * Q) :=
    matShape?_trM hshape (by positivity) (by positivity)
  have htrr : matShape? (trM 0 [sel.flatten]) = some (P * Q, 1) := by
    rw [← hrowlen]
    exact matShape?_trM_row (by rw [hrowlen]; positivity)
  have hmul := matMul?_eq htrf htrr
  set prod := (trM 0 fprimes).map
    (fun row => (trM 0 (trM 0 [sel.flatten])).map (fun col => dot row col)) with hproddef
  have hprodshape : matShape? prod = some (3 * Q, 1) :=
    matMul?_shape htrf htrr (by positivity) (by positivity)
  obtain ⟨hprodlen, hprodrows⟩ := matShape?_inv hprodshape
  have hnegrows := negMat_rows hprodrows
  have hneglen : (negMat prod).flatten.length = 3 * Q := by
    rw [sum_map_const_len _ hnegrows.2, hnegrows.1, hprodlen]
    ring
  obtain ⟨hresh, hreshshape⟩ := reshape3?_eq hneglen hQ
  refine ⟨chunks3 (negMat prod).flatten, ?_, hreshshape, ?_⟩
  · unfold forceFromGrads
    rw [hsel]
    simp only [Option.bind_eq_bind, Option.some_bind]
    rw [hmul]
    simp only [Option.some_bind]
    exact hresh
  · unfold specForcePred
    rw [hmul]
    simp only [Option.bind_eq_bind, Option.some_bind]
    exact hresh

/-- Claim C1 (amended): with `forcetraining` on and a `SparseForceMap` of
shape `(P·Q, 3·Q)` — `Q` gradient rows of length `P` accumulated by the
element loop — `FullNN.forward` succeeds and its `force_pred` equals
`-1 × (SparseForceMap transposed) × (reordered gradient row transposed)`
reshaped to `(Q, 3)`.  (The spec's stated shape `(3·Q, P·Q)` is the
transposed one; see the counterexample.) -/
theorem amptorch_C1 (σ σd : ℚ → ℚ) (M : FullNN) (input : List (String × ElemData))
    (bs : ℕ) (fprimes : Mat) (st : FwdState) (P Q : ℕ)
    (hft : M.forcetraining = true)
    (hloop : fwdLoop σ σd M.models true input M.unique_atoms
      { energy := List.replicate bs 0, dE := [], idx := [] } = some st)
    (hQd : st.dE.length = Q) (hQi : st.idx.length = Q)
    (hP : ∀ r ∈ st.dE, r.length = P)
    (hshape : matShape? fprimes = some (P * Q, 3 * Q)) (hQ : 0 < Q) (hPp : 0 < P) :
    ∃ F, FullNN.forward σ σd M input bs (some fprimes) = some (st.energy, some F) ∧
      matShape? F = some (Q, 3) ∧
      specForcePred fprimes
        (((orderedIdx st.idx).map (fun j => st.dE.getD j [])).flatten) = some F := by
  obtain ⟨F, hF, hFshape, hFspec⟩ :=
    forceFromGrads_ok hQd hQi hP hshape hQ hPp
  refine ⟨F, ?_, hFshape, hFspec⟩
  unfold FullNN.forward
  rw [hft, if_pos rfl]
  simp only [Option.bind_eq_bind, Option.some_bind]
  rw [hloop]
  simp only [Option.some_bind]
  rw [hF]
  simp [Option.pure_def]

/-! ## Concrete instances for counterexamples and witnesses -/

/-- A single affine layer with weights `w` and zero bias: the `n_layers=1`
degenerate `MLP` whose scalar output is `w · x` and whose input gradient
is `w`. -/
def linNet (w : List ℚ) : List DenseL := [{ weight := [w], bias := [0], act := false }]

def fnnC1 : FullNN :=
  { unique_atoms := ["A"]
    models := fun _ => linNet [1, 1]
    forcetraining := true }

def batchC1 : List (String × ElemData) := [("A", { inputs := [[1, 2]], cidx := [0] })]

/-- Claim C1 counterexample: for the one-atom batch (`Q = 1`) with
fingerprint length `P = 2`, a `SparseForceMap` of the spec's stated shape
`(3·Q, P·Q) = (3, 2)` is dimensionally incompatible with the product the
source computes — `fprimes.t()` is `2 × 3` and cannot left-multiply the
`2 × 1` transposed gradient row — so the forward pass fails instead of
returning the claimed `force_pred`. -/
theorem amptorch_C1_cex :
    matShape? [[1, 0], [0, 1], [0, 0]] = some (3 * 1, 2 * 1) ∧
    (∀ p ∈ batchC1, ∀ x ∈ p.2.inputs, x.length = 2) ∧
    (batchC1.map (fun p => p.2.cidx.length)).sum = 1 ∧
    FullNN.forward id id fnnC1 batchC1 1 (some [[1, 0], [0, 1], [0, 0]]) = none := by
  decide

theorem amptorch_C1_witness :
    ∃ F, FullNN.forward id id fnnC1 batchC1 1 (some [[1, 0, 0], [0, 1, 0]]) =
        some (([3] : List ℚ), some F) ∧ matShape? F = some (1, 3) ∧
      specForcePred [[1, 0, 0], [0, 1, 0]]
        (((orderedIdx [0]).map (fun j => [[(1 : ℚ), 1]].getD j [])).flatten) = some F :=
  amptorch_C1 id id fnnC1 batchC1 1 [[1, 0, 0], [0, 1, 0]]
    { energy := [3], dE := [[1, 1]], idx := [0] } 2 1 rfl
    (by simp [fwdLoop, lookupElem, indexAdd?, mlpOut, mlpForward, DenseL.fwd, denseLin, dot,
      mlpGradRow, vjp, fnnC1, batchC1, linNet, List.find?]; norm_num)
    (by decide) (by decide) (by decide) (by decide) (by decide) (by decide)

/-! ## Claim C7: sub-network construction and the hidden-width list -/

theorem mapM_option_isSome {α β : Type} (f : α → Option β) (l : List α) :
    (l.mapM f).isSome = true ↔ ∀ a ∈ l, (f a).isSome = true := by
  induction l with
  | nil => rw [List.mapM_nil]; simp
  | cons a rest ih =>
    rw [List.mapM_cons]
    cases hfa : f a with
    | none => simp [hfa]
    | some b =>
      cases hrest : rest.mapM f with
      | none =>
        have h2 : ¬ ∀ x ∈ rest, (f x).isSome = true := by
          rw [← ih, hrest]
          simp
        simp only [hfa, hrest, Option.bind_eq_bind, Option.some_bind, Option.none_bind,
          Option.isSome_none, Bool.false_eq_true, false_iff, List.mem_cons, not_forall]
        obtain ⟨x, hx, hfx⟩ := by
          push_neg at h2
          exact h2
        exact ⟨x, ⟨Or.inr hx, by simp [hfx]⟩⟩
      | some bs =>
        have h2 : ∀ x ∈ rest, (f x).isSome = true := by
          rw [← ih, hrest]
          simp
        simp only [hfa, hrest, Option.bind_eq_bind, Option.some_bind, Option.pure_def,
          Option.isSome_some, true_iff, List.mem_cons]
        intro x hx
        rcases hx with rfl | hx
        · simp [hfa]
        · exact h2 x hx

theorem mlpHiddenDims_isSome (n_neurons : List ℕ) (n_layers : ℕ) :
    (mlpHiddenDims n_neurons n_layers).isSome = true ↔
      ∀ i ∈ List.range (n_layers - 1), i + 1 < n_neurons.length := by
  unfold mlpHiddenDims
  rw [mapM_option_isSome]
  apply forall_congr'
  intro i
  apply imp_congr_right
  intro _
  cases ha : n_neurons.get? i with
  | none =>
    have hlen : n_neurons.length ≤ i := List.get?_eq_none.mp ha
    simp only [ha, Option.bind_eq_bind, Option.none_bind, Option.isSome_none,
      Bool.false_eq_true, false_iff]
    omega
  | some a =>
    have hi : i < n_neurons.length := by
      by_contra hc
      rw [List.get?_eq_none.mpr (by omega)] at ha
      exact Option.noConfusion ha
    cases hb : n_neurons.get? (i + 1) with
    | none =>
      have hlen : n_neurons.length ≤ i + 1 := List.get?_eq_none.mp hb
      simp only [ha, hb, Option.bind_eq_bind, Option.some_bind, Option.none_bind,
        Option.isSome_none, Bool.false_eq_true, false_iff]
      omega
    | some b =>
      have : i + 1 < n_neurons.length := by
        by_contra hc
        rw [List.get?_eq_none.mpr (by omega)] at hb
        exact Option.noConfusion hb
      simp only [ha, hb, Option.bind_eq_bind, Option.some_bind, Option.pure_def,
        Option.isSome_some, true_iff]
      omega

/-- Claim C7 (amended): constructing the sub-network layer list with an
explicit hidden-width list succeeds exactly when the list has at least
`L - 2` entries (`L ≤ len + 2`); in particular it succeeds when the
length equals `L - 1` — but it does NOT fail on every length mismatch:
a list one entry short (or any longer list) also constructs (yielding
inconsistent layer dimensions), and only lists shorter than `L - 2` raise
the index error. -/
theorem amptorch_C7 (n_input_nodes n_output_nodes n_layers : ℕ) (n_hidden_size : List ℕ) :
    (mlpLayerDims n_input_nodes n_output_nodes n_layers n_hidden_size).isSome = true ↔
      n_layers ≤ n_hidden_size.length + 2 := by
  have hlen : (n_input_nodes :: n_hidden_size ++ [n_output_nodes]).length =
      n_hidden_size.length + 2 := by simp
  unfold mlpLayerDims
  simp only [Option.bind_eq_bind]
  cases hm : mlpHiddenDims (n_input_nodes :: n_hidden_size ++ [n_output_nodes]) n_layers with
  | none =>
    have := (mlpHiddenDims_isSome (n_input_nodes :: n_hidden_size ++ [n_output_nodes])
      n_layers)
    rw [hm] at this
    simp only [Option.isSome_none, Bool.false_eq_true, false_iff, not_forall] at this
    obtain ⟨i, hi, hbad⟩ := this
    have hir := List.mem_range.mp hi
    simp only [Option.none_bind, Option.isSome_none, Bool.false_eq_true, false_iff]
    rw [hlen] at hbad
    omega
  | some hid =>
    have := (mlpHiddenDims_isSome (n_input_nodes :: n_hidden_size ++ [n_output_nodes])
      n_layers)
    rw [hm] at this
    simp only [Option.isSome_some, true_iff] at this
    simp only [Option.some_bind, Option.pure_def, Option.isSome_some, true_iff]
    rw [hlen] at this
    by_cases hL : n_layers ≤ 1
    · omega
    · have := this (n_layers - 2) (List.mem_range.mpr (by omega))
      omega

/-- Claim C7 counterexample: with `n_layers = 3`, a hidden-width list of
length `1 ≠ 3 - 1` does NOT make construction fail — the source builds
the layer list without raising. -/
theorem amptorch_C7_cex :
    (mlpLayerDims 20 1 3 [5]).isSome = true ∧ ([5] : List ℕ).length ≠ 3 - 1 := by
  decide

/-! ## Claim C5: element-symbol mismatches between model and batch -/

theorem fwdLoop_none_of_missing {σ σd : ℚ → ℚ} {models : String → List DenseL} {ft : Bool}
    {input : List (String × ElemData)} {elems : List String} {st : FwdState}
    (h : ∃ e ∈ elems, lookupElem input e = none) :
    fwdLoop σ σd models ft input elems st = none := by
  induction elems generalizing st with
  | nil =>
    obtain ⟨e, he, _⟩ := h
    exact absurd he (List.not_mem_nil e)
  | cons e rest ih =>
    obtain ⟨e', he', hnone⟩ := h
    simp only [fwdLoop, Option.bind_eq_bind]
    cases hl : lookupElem input e with
    | none => simp
    | some ed =>
      rcases List.mem_cons.mp he' with rfl | hmem
      · rw [hl] at hnone
        exact Option.noConfusion hnone
      · simp only [Option.some_bind]
        cases hA : indexAdd? st.energy ed.cidx (ed.inputs.map (mlpOut σ (models e))) with
        | none => simp
        | some energy =>
          simp only [Option.some_bind]
          exact ih ⟨e', hmem, hnone⟩

theorem fwdLoop_congr_input {σ σd : ℚ → ℚ} {models : String → List DenseL} {ft : Bool}
    {input1 input2 : List (String × ElemData)} {elems : List String}
    (h : ∀ e ∈ elems, lookupElem input1 e = lookupElem input2 e) (st : FwdState) :
    fwdLoop σ σd models ft input1 elems st = fwdLoop σ σd models ft input2 elems st := by
  induction elems generalizing st with
  | nil => rfl
  | cons e rest ih =>
    simp only [fwdLoop, Option.bind_eq_bind]
    rw [h e (List.mem_cons_self e rest)]
    cases lookupElem input2 e with
    | none => rfl
    | some ed =>
      simp only [Option.some_bind]
      cases indexAdd? st.energy ed.cidx (ed.inputs.map (mlpOut σ (models e))) with
      | none => rfl
      | some energy =>
        simp only [Option.some_bind]
        exact ih (fun e' he' => h e' (List.mem_cons_of_mem _ he')) _

theorem lookupElem_filter {input : List (String × ElemData)} {U : List String} {e : String}
    (he : e ∈ U) :
    lookupElem (input.filter (fun p => decide (p.1 ∈ U))) e = lookupElem input e := by
  induction input with
  | nil => rfl
  | cons p rest ih =>
    by_cases hp : p.1 ∈ U
    · rw [List.filter_cons_of_pos (by simpa using hp)]
      by_cases hpe : p.1 = e
      · unfold lookupElem
        rw [List.find?_cons_of_pos _ (by simpa using hpe),
          List.find?_cons_of_pos _ (by simpa using hpe)]
      · unfold lookupElem at ih ⊢
        rw [List.find?_cons_of_neg _ (by simpa using hpe),
          List.find?_cons_of_neg _ (by simpa using hpe)]
        exact ih
    · rw [List.filter_cons_of_neg (by simpa using hp)]
      have hpe : p.1 ≠ e := fun hh => hp (hh ▸ he)
      unfold lookupElem at ih ⊢
      rw [List.find?_cons_of_neg _ (by simpa using hpe)]
      exact ih

/-- Claim C5 (amended): the configuration-mismatch failure runs in the
OPPOSITE direction from the claim.  (1) The forward pass fails when some
element of the model's `unique_atoms` has no group in the Batch (the
`input_data[element]` KeyError).  (2) An element symbol present in the
Batch but absent from the model's `unique_atoms` is silently ignored:
dropping all such entries leaves the output (energy and force alike)
unchanged, so no error is raised for it and its atoms contribute
nothing. -/
theorem amptorch_C5 (σ σd : ℚ → ℚ) (M : FullNN) (input : List (String × ElemData))
    (bs : ℕ) (fp : Option Mat) :
    ((∃ e ∈ M.unique_atoms, lookupElem input e = none) →
      FullNN.forward σ σd M input bs fp = none) ∧
    FullNN.forward σ σd M input bs fp =
      FullNN.forward σ σd M (input.filter (fun p => decide (p.1 ∈ M.unique_atoms))) bs fp := by
  constructor
  · intro h
    unfold FullNN.forward
    cases hft : M.forcetraining with
    | true =>
      rw [if_pos rfl]
      cases fp with
      | none => rfl
      | some fpm =>
        simp only [Option.bind_eq_bind, Option.some_bind]
        rw [fwdLoop_none_of_missing h]
        rfl
    | false =>
      rw [if_neg (by decide)]
      simp only [Option.bind_eq_bind]
      rw [fwdLoop_none_of_missing h]
      rfl
  · have hcong : ∀ (ft : Bool) (st : FwdState),
        fwdLoop σ σd M.models ft input M.unique_atoms st =
        fwdLoop σ σd M.models ft (input.filter (fun p => decide (p.1 ∈ M.unique_atoms)))
          M.unique_atoms st :=
      fun ft st => fwdLoop_congr_input
        (fun e he => (lookupElem_filter he).symm) st
    unfold FullNN.forward
    cases M.forcetraining with
    | true =>
      rw [if_pos rfl, if_pos rfl]
      simp only [Option.bind_eq_bind]
      rw [hcong true { energy := List.replicate bs 0, dE := [], idx := [] }]
    | false =>
      rw [if_neg (by decide), if_neg (by decide)]
      simp only [Option.bind_eq_bind]
      rw [hcong false { energy := List.replicate bs 0, dE := [], idx := [] }]

def fnnC5 : FullNN :=
  { unique_atoms := ["A"]
    models := fun _ => linNet [1]
    forcetraining := false }

def batchC5 : List (String × ElemData) :=
  [("A", { inputs := [[0]], cidx := [0] }), ("B", { inputs := [[0]], cidx := [0] })]

/-- Claim C5 counterexample: a Batch containing the element symbol
`B` for which the model has no sub-network does NOT make the forward
pass fail — it succeeds, silently ignoring the `B` group. -/
theorem amptorch_C5_cex :
    ("B" ∈ batchC5.map Prod.fst) ∧ "B" ∉ fnnC5.unique_atoms ∧
    (FullNN.forward id id fnnC5 batchC5 1 none).isSome = true := by
  refine ⟨by decide, by decide, ?_⟩
  rfl

theorem amptorch_C5_witness :
    FullNN.forward id id fnnC5 ([] : List (String × ElemData)) 1 none = none :=
  (amptorch_C5 id id fnnC5 [] 1 none).1 ⟨"A", by decide, rfl⟩

/-! ## Claim C4: permuting the element-iteration order -/

theorem map_getD_range {α : Type} (l : List α) (d : α) :
    (List.range l.length).map (fun j => l.getD j d) = l := by
  induction l with
  | nil => simp
  | cons a rest ih =>
    rw [List.length_cons, List.range_succ_eq_map, List.map_cons, List.map_map]
    simp only [List.getD_cons_zero]
    congr 1

theorem list_eq_of_getD {l1 l2 : List ℚ} (hlen : l1.length = l2.length)
    (h : ∀ s, l1.getD s 0 = l2.getD s 0) : l1 = l2 := by
  apply List.ext_getElem hlen
  intro n h1 h2
  have := h n
  rwa [List.getD_eq_getElem _ _ h1, List.getD_eq_getElem _ _ h2] at this

/-- The selected gradient-row list is a permutation of the full row
list: the reorder only reorders. -/
theorem sel_perm_rows {dE : List Vec} {idx : List ℕ} (h : dE.length = idx.length) :
    ((orderedIdx idx).map (fun j => dE.getD j [])).Perm dE := by
  have h1 := (orderedIdx_perm idx).map (fun j => dE.getD j [])
  rw [← h] at h1
  rw [map_getD_range dE []] at h1
  exact h1

theorem uniqueSorted_perm_eq {idx idx' : List ℕ} (h : idx.Perm idx') :
    uniqueSorted idx = uniqueSorted idx' := by
  unfold uniqueSorted
  exact List.eq_of_perm_of_sorted
    ((List.perm_insertionSort _ _).trans (h.dedup.trans
      (List.perm_insertionSort _ _).symm))
    (List.sorted_insertionSort _ _) (List.sorted_insertionSort _ _)

theorem zip_flatten_eq {α β : Type} : ∀ (L : List (List α × List β)),
    (∀ p ∈ L, p.1.length = p.2.length) →
    ((L.map Prod.fst).flatten).zip ((L.map Prod.snd).flatten) =
      (L.map (fun p => p.1.zip p.2)).flatten := by
  intro L
  induction L with
  | nil => simp
  | cons p rest ih =>
    intro h
    simp only [List.map_cons, List.flatten_cons]
    rw [List.zip_append (h p (List.mem_cons_self p rest)),
      ih (fun q hq => h q (List.mem_cons_of_mem _ hq))]

theorem flatten_map_dropEmpty {α β : Type} (g : α → List β) (L : List α) :
    (L.map g).flatten = ((L.filter (fun a => !(g a).isEmpty)).map g).flatten := by
  induction L with
  | nil => rfl
  | cons a rest ih =>
    rw [List.map_cons, List.flatten_cons, List.filter_cons]
    cases hga : (g a).isEmpty with
    | true =>
      have : g a = [] := List.isEmpty_iff.mp hga
      simp only [hga, Bool.not_true, Bool.false_eq_true, if_false, this, List.nil_append]
      exact ih
    | false =>
      simp only [hga, Bool.not_false, if_true, List.map_cons, List.flatten_cons]
      rw [ih]

theorem length_le_one_of_pairwise_eq {α : Type} {L : List α} (hnd : L.Nodup)
    (h : ∀ a ∈ L, ∀ b ∈ L, a = b) : L.length ≤ 1 := by
  cases L with
  | nil => simp
  | cons a rest =>
    cases rest with
    | nil => simp
    | cons b rest2 =>
      exfalso
      have hab : a = b := h a (by simp) b (by simp)
      simp [hab] at hnd

theorem eq_of_perm_of_length_le_one {α : Type} {L L' : List α} (h : L.Perm L')
    (hlen : L.length ≤ 1) : L = L' := by
  cases L with
  | nil => rw [(List.Perm.nil_eq h).symm]
  | cons a rest =>
    cases rest with
    | nil => exact ((List.perm_singleton).mp h.symm).symm
    | cons b rest2 => simp at hlen

/-- A flatten of per-key segments where at most one key yields a
non-empty segment is invariant under permuting the (duplicate-free) key
list. -/
theorem flatten_map_perm_subsingleton {α β : Type} (g : α → List β) {L L' : List α}
    (hperm : L.Perm L') (hnd : L.Nodup)
    (hsub : ∀ a ∈ L, ∀ b ∈ L, g a ≠ [] → g b ≠ [] → a = b) :
    (L.map g).flatten = (L'.map g).flatten := by
  rw [flatten_map_dropEmpty g L, flatten_map_dropEmpty g L']
  congr 2
  have hpf : (L.filter (fun a => !(g a).isEmpty)).Perm
      (L'.filter (fun a => !(g a).isEmpty)) := hperm.filter _
  apply eq_of_perm_of_length_le_one hpf
  apply length_le_one_of_pairwise_eq (hnd.filter _)
  intro a ha b hb
  have ha' := List.of_mem_filter ha
  have hb' := List.of_mem_filter hb
  simp only [Bool.not_eq_true'] at ha' hb'
  exact hsub a (List.mem_of_mem_filter ha) b (List.mem_of_mem_filter hb)
    (by intro hh; rw [hh] at ha'; simp at ha')
    (by intro hh; rw [hh] at hb'; simp at hb')

/-- The reordered row selection written by owner value, in unboxed form
for reuse. -/
theorem sel_rows_by_owner {dE : List Vec} {idx : List ℕ} (h : dE.length = idx.length) :
    (orderedIdx idx).map (fun j => dE.getD j []) =
      (uniqueSorted idx).flatMap
        (fun u => ((dE.zip idx).filter (fun p => p.2 = u)).map Prod.fst) := by
  rw [orderedIdx_eq_flatMap, List.map_flatMap]
  exact List.flatMap_congr (fun u _ => select_filter_zip [] u idx dE h)

theorem trM_single_shape_eq {row row' : Vec} (h : row'.length = row.length) :
    matShape? (trM 0 [row']) = matShape? (trM 0 [row]) := by
  by_cases h0 : row.length = 0
  · have hr : row = [] := List.length_eq_zero.mp h0
    have hr' : row' = [] := List.length_eq_zero.mp (by omega)
    rw [hr, hr']
  · rw [matShape?_trM_row (by omega), matShape?_trM_row (by omega), h]

theorem len_trM_trM_row (row : Vec) :
    (trM 0 (trM 0 [row])).length = if row.length = 0 then 0 else 1 := by
  cases row with
  | nil => rfl
  | cons a rest =>
    simp only [List.length_cons, Nat.succ_ne_zero, if_neg, reduceIte]
    unfold trM
    simp [List.range_succ_eq_map]

theorem negMat_flatten_len (m : Mat) : (negMat m).flatten.length = m.flatten.length := by
  simp only [negMat, List.length_flatten, List.map_map]
  congr 1
  apply List.map_congr_left
  intro row _
  simp

theorem reshape3?_inv {m : Mat} {F : Mat} (h : reshape3? m = some F) :
    m.flatten.length % 3 = 0 ∧ F = chunks3 m.flatten := by
  unfold reshape3? at h
  simp only at h
  split at h
  case isTrue hc =>
    simp only [Option.some.injEq] at h
    exact ⟨hc, h.symm⟩
  case isFalse => exact Option.noConfusion h

theorem prod_flatten_len (a b : Mat) :
    (a.map (fun row => (trM 0 b).map (fun col => dot row col))).flatten.length =
      a.length * (trM 0 b).length := by
  rw [sum_map_const_len ((trM 0 b).length)]
  · simp
  · intro x hx
    obtain ⟨row, _, rfl⟩ := List.mem_map.mp hx
    simp

theorem forward_true_inv {σ σd : ℚ → ℚ} {M : FullNN} {input : List (String × ElemData)}
    {bs : ℕ} {fp : Option Mat} {energy : List ℚ} {f : Option Mat}
    (hft : M.forcetraining = true)
    (h : FullNN.forward σ σd M input bs fp = some (energy, f)) :
    ∃ fpm st F, fp = some fpm ∧
      fwdLoop σ σd M.models true input M.unique_atoms
        { energy := List.replicate bs 0, dE := [], idx := [] } = some st ∧
      forceFromGrads fpm st.dE st.idx = some F ∧ energy = st.energy ∧ f = some F := by
  unfold FullNN.forward at h
  rw [hft, if_pos rfl] at h
  simp only [Option.bind_eq_bind] at h
  rw [Option.bind_eq_some] at h
  obtain ⟨fpm, hfp, h⟩ := h
  rw [Option.bind_eq_some] at h
  obtain ⟨st, hloop, h⟩ := h
  rw [Option.bind_eq_some] at h
  obtain ⟨F, hforce, h⟩ := h
  simp only [Option.pure_def, Option.some.injEq, Prod.mk.injEq] at h
  exact ⟨fpm, st, F, hfp, hloop, hforce, h.1.symm, h.2.symm⟩

theorem forward_false_inv {σ σd : ℚ → ℚ} {M : FullNN} {input : List (String × ElemData)}
    {bs : ℕ} {fp : Option Mat} {energy : List ℚ} {f : Option Mat}
    (hft : M.forcetraining = false)
    (h : FullNN.forward σ σd M input bs fp = some (energy, f)) :
    ∃ st, fwdLoop σ σd M.models false input M.unique_atoms
        { energy := List.replicate bs 0, dE := [], idx := [] } = some st ∧
      energy = st.energy ∧ f = none := by
  unfold FullNN.forward at h
  rw [hft, if_neg (by decide)] at h
  simp only [Option.bind_eq_bind] at h
  rw [Option.bind_eq_some] at h
  obtain ⟨st, hloop, h⟩ := h
  simp only [Option.pure_def, Option.some.injEq, Prod.mk.injEq] at h
  exact ⟨st, hloop, h.1.symm, h.2.symm⟩

/-- When every owner index is confined to a single element group, the
reordered gradient-row selection does not depend on the order in which
the (duplicate-free) element list is iterated. -/
theorem sel_eq_of_single_owner (σ σd : ℚ → ℚ) (models : String → List DenseL)
    (input : List (String × ElemData)) {L L' : List String}
    (hperm : L.Perm L') (hnd : L.Nodup)
    (hlen : ∀ e ∈ L, (elemGradRows σ σd models input e).length = (elemIdx input e).length)
    (hsingle : ∀ v : ℕ, ∀ e₁ ∈ L, ∀ e₂ ∈ L, v ∈ elemIdx input e₁ → v ∈ elemIdx input e₂ →
      e₁ = e₂) :
    (orderedIdx ((L'.map (elemIdx input)).flatten)).map
        (fun j => ((L'.map (elemGradRows σ σd models input)).flatten).getD j []) =
      (orderedIdx ((L.map (elemIdx input)).flatten)).map
        (fun j => ((L.map (elemGradRows σ σd models input)).flatten).getD j []) := by
  have hlen' : ∀ e ∈ L',
      (elemGradRows σ σd models input e).length = (elemIdx input e).length :=
    fun e he => hlen e (hperm.mem_iff.mpr he)
  have hDL : ∀ (K : List String),
      (∀ e ∈ K, (elemGradRows σ σd models input e).length = (elemIdx input e).length) →
      ((K.map (elemGradRows σ σd models input)).flatten).length =
        ((K.map (elemIdx input)).flatten).length := by
    intro K hK
    rw [List.length_flatten, List.length_flatten, List.map_map, List.map_map]
    congr 1
    apply List.map_congr_left
    intro e he
    simpa [Function.comp] using hK e he
  have hz : ∀ (K : List String),
      (∀ e ∈ K, (elemGradRows σ σd models input e).length = (elemIdx input e).length) →
      ((K.map (elemGradRows σ σd models input)).flatten).zip
          ((K.map (elemIdx input)).flatten) =
        (K.map (fun e => (elemGradRows σ σd models input e).zip (elemIdx input e))).flatten := by
    intro K hK
    have := zip_flatten_eq
      (K.map (fun e => (elemGradRows σ σd models input e, elemIdx input e)))
      (by
        intro p hp
        obtain ⟨e, he, rfl⟩ := List.mem_map.mp hp
        exact hK e he)
    simpa [List.map_map, Function.comp] using this
  have hidxperm : ((L.map (elemIdx input)).flatten).Perm
      ((L'.map (elemIdx input)).flatten) := (hperm.map (elemIdx input)).flatten
  rw [sel_rows_by_owner (hDL L' hlen'), sel_rows_by_owner (hDL L hlen),
    ← uniqueSorted_perm_eq hidxperm]
  apply List.flatMap_congr
  intro v _
  rw [hz L' hlen', hz L hlen, List.filter_flatten, List.filter_flatten,
    List.map_flatten, List.map_flatten, List.map_map, List.map_map]
  have hsub : ∀ a ∈ L, ∀ b ∈ L,
      (List.map Prod.fst (List.filter (fun p => decide (p.2 = v))
        ((elemGradRows σ σd models input a).zip (elemIdx input a)))) ≠ [] →
      (List.map Prod.fst (List.filter (fun p => decide (p.2 = v))
        ((elemGradRows σ σd models input b).zip (elemIdx input b)))) ≠ [] →
      a = b := by
    intro a ha b hb hga hgb
    have hva : v ∈ elemIdx input a := by
      obtain ⟨q, hq⟩ := List.exists_mem_of_ne_nil _ hga
      obtain ⟨p, hp, rfl⟩ := List.mem_map.mp hq
      have hpv := List.of_mem_filter hp
      simp only [decide_eq_true_eq] at hpv
      have := (List.of_mem_zip (List.mem_of_mem_filter hp)).2
      exact hpv ▸ this
    have hvb : v ∈ elemIdx input b := by
      obtain ⟨q, hq⟩ := List.exists_mem_of_ne_nil _ hgb
      obtain ⟨p, hp, rfl⟩ := List.mem_map.mp hq
      have hpv := List.of_mem_filter hp
      simp only [decide_eq_true_eq] at hpv
      have := (List.of_mem_zip (List.mem_of_mem_filter hp)).2
      exact hpv ▸ this
    exact hsingle v a ha b hb hva hvb
  have hmain := (flatten_map_perm_subsingleton
    (fun e => List.map Prod.fst
      (List.filter (fun p => decide (p.2 = v))
        ((elemGradRows σ σd models input e).zip (elemIdx input e))))
    hperm hnd hsub).symm
  simpa [Function.comp] using hmain

theorem flatten_len_eq_of_seg {σ σd : ℚ → ℚ} {models : String → List DenseL}
    {input : List (String × ElemData)} {K : List String}
    (hK : ∀ e ∈ K, (elemGradRows σ σd models input e).length = (elemIdx input e).length) :
    ((K.map (elemGradRows σ σd models input)).flatten).length =
      ((K.map (elemIdx input)).flatten).length := by
  rw [List.length_flatten, List.length_flatten, List.map_map, List.map_map]
  congr 1
  apply List.map_congr_left
  intro e he
  simpa [Function.comp] using hK e he

theorem forceFromGrads_congr_sel {fpm : Mat} {dE dE' : List Vec} {idx idx' : List ℕ}
    (h : dE.length = idx.length) (h' : dE'.length = idx'.length)
    (hsel : (orderedIdx idx').map (fun j => dE'.getD j []) =
      (orderedIdx idx).map (fun j => dE.getD j [])) :
    forceFromGrads fpm dE' idx' = forceFromGrads fpm dE idx := by
  unfold forceFromGrads
  rw [selectRows?_ok h, selectRows?_ok h', hsel]

/-- Success of the force block depends on the gradient data only through
the length of the flattened reordered row. -/
theorem forceFromGrads_transfer {fpm : Mat} {dE dE' : List Vec} {idx idx' : List ℕ} {F : Mat}
    (h : dE.length = idx.length) (h' : dE'.length = idx'.length)
    (hrowlen : ((orderedIdx idx').map (fun j => dE'.getD j [])).flatten.length =
      ((orderedIdx idx).map (fun j => dE.getD j [])).flatten.length)
    (hF : forceFromGrads fpm dE idx = some F) :
    (forceFromGrads fpm dE' idx').isSome = true := by
  unfold forceFromGrads at hF ⊢
  rw [selectRows?_ok h] at hF
  rw [selectRows?_ok h']
  simp only [Option.bind_eq_bind, Option.some_bind] at hF ⊢
  rw [Option.bind_eq_some] at hF
  obtain ⟨prod, hmul, hresh⟩ := hF
  obtain ⟨⟨ra, k⟩, ⟨k2, cb⟩, ha, hb, hmid⟩ := matMul?_inv hmul
  simp only at hmid
  subst hmid
  have hb' : matShape? (trM 0 [((orderedIdx idx').map (fun j => dE'.getD j [])).flatten]) =
      some (k, cb) := by
    rw [trM_single_shape_eq hrowlen]
    exact hb
  have hmul' := matMul?_eq ha hb'
  have hmulEq := matMul?_eq ha hb
  rw [hmul] at hmulEq
  have hprodEq := Option.some.inj hmulEq
  obtain ⟨hmod, -⟩ := reshape3?_inv hresh
  rw [hmul']
  simp only [Option.some_bind]
  have hlen' : (negMat ((trM 0 fpm).map (fun row =>
      (trM 0 (trM 0 [((orderedIdx idx').map (fun j => dE'.getD j [])).flatten])).map
        (fun col => dot row col)))).flatten.length = (negMat prod).flatten.length := by
    rw [negMat_flatten_len, negMat_flatten_len, hprodEq, prod_flatten_len, prod_flatten_len,
      len_trM_trM_row, len_trM_trM_row, hrowlen]
  unfold reshape3?
  rw [if_pos (by rw [hlen']; exact hmod)]
  simp

/-- Claim C4 (amended): permuting the Composite Model's element-iteration
order (sub-network weights per element held fixed) never changes
`energy_pred`; it also leaves `force_pred` unchanged whenever every
owner index is confined to a single element group of the batch — but not
in general: when two elements share an owner index, the reorder preserves
only the owner grouping while the within-owner arrival order follows the
element-iteration order (see the counterexample). -/
theorem amptorch_C4 (σ σd : ℚ → ℚ) (M : FullNN) (ua' : List String)
    (input : List (String × ElemData)) (bs : ℕ) (fp : Option Mat)
    (energy : List ℚ) (f : Option Mat)
    (hperm : M.unique_atoms.Perm ua') (hnd : M.unique_atoms.Nodup)
    (hok : FullNN.forward σ σd M input bs fp = some (energy, f)) :
    ∃ f', FullNN.forward σ σd
        { unique_atoms := ua', models := M.models, forcetraining := M.forcetraining }
        input bs fp = some (energy, f') ∧
      ((∀ v : ℕ, ∀ p₁ ∈ input, ∀ p₂ ∈ input,
          v ∈ (p₁ : String × ElemData).2.cidx → v ∈ (p₂ : String × ElemData).2.cidx →
          p₁ = p₂) → f' = f) := by
  cases hft : M.forcetraining with
  | false =>
    obtain ⟨st, hloop, hE0, hfnone⟩ := forward_false_inv hft hok
    have hsome : (fwdLoop σ σd M.models false input M.unique_atoms
        { energy := List.replicate bs 0, dE := [], idx := [] }).isSome = true := by
      rw [hloop]; rfl
    have hconds := fwdLoop_isSome.mp hsome
    have hsome' : (fwdLoop σ σd M.models false input ua'
        { energy := List.replicate bs 0, dE := [], idx := [] }).isSome = true :=
      fwdLoop_isSome.mpr (fun e he => hconds e (hperm.mem_iff.mpr he))
    obtain ⟨st', hloop'⟩ := Option.isSome_iff_exists.mp hsome'
    have hE : st'.energy = st.energy := by
      apply list_eq_of_getD
      · rw [fwdLoop_energy_length hloop', fwdLoop_energy_length hloop]
      · intro s
        rw [fwdLoop_energy_getD hloop' s, fwdLoop_energy_getD hloop s,
          ((hperm.map (fun e => elemContrib σ M.models input e s)).sum_eq).symm]
    refine ⟨none, ?_, fun _ => hfnone.symm⟩
    unfold FullNN.forward
    dsimp only
    rw [if_neg (by decide)]
    simp only [Option.bind_eq_bind]
    rw [hloop']
    simp only [Option.some_bind, Option.pure_def]
    rw [hE, ← hE0]
  | true =>
    obtain ⟨fpm, st, F, hfp, hloop, hF, hE0, hfF⟩ := forward_true_inv hft hok
    have hsome : (fwdLoop σ σd M.models true input M.unique_atoms
        { energy := List.replicate bs 0, dE := [], idx := [] }).isSome = true := by
      rw [hloop]; rfl
    have hconds := fwdLoop_isSome.mp hsome
    have hsome' : (fwdLoop σ σd M.models true input ua'
        { energy := List.replicate bs 0, dE := [], idx := [] }).isSome = true :=
      fwdLoop_isSome.mpr (fun e he => hconds e (hperm.mem_iff.mpr he))
    obtain ⟨st', hloop'⟩ := Option.isSome_iff_exists.mp hsome'
    have hE : st'.energy = st.energy := by
      apply list_eq_of_getD
      · rw [fwdLoop_energy_length hloop', fwdLoop_energy_length hloop]
      · intro s
        rw [fwdLoop_energy_getD hloop' s, fwdLoop_energy_getD hloop s,
          ((hperm.map (fun e => elemContrib σ M.models input e s)).sum_eq).symm]
    have hlenf : ∀ e ∈ M.unique_atoms,
        (elemGradRows σ σd M.models input e).length = (elemIdx input e).length := by
      intro e he
      obtain ⟨ed, hl, hle, -⟩ := hconds e he
      simp [elemGradRows, elemIdx, hl, hle.symm]
    have hlenf' : ∀ e ∈ ua',
        (elemGradRows σ σd M.models input e).length = (elemIdx input e).length :=
      fun e he => hlenf e (hperm.mem_iff.mpr he)
    obtain ⟨hdE, hidx⟩ := fwdLoop_dE_idx hloop
    obtain ⟨hdE', hidx'⟩ := fwdLoop_dE_idx hloop'
    simp only [List.nil_append] at hdE hidx hdE' hidx'
    have hlen1 : st.dE.length = st.idx.length := by
      rw [hdE, hidx]; exact flatten_len_eq_of_seg hlenf
    have hlen1' : st'.dE.length = st'.idx.length := by
      rw [hdE', hidx']; exact flatten_len_eq_of_seg hlenf'
    have hdperm : st.dE.Perm st'.dE := by
      rw [hdE, hdE']
      exact (hperm.map (elemGradRows σ σd M.models input)).flatten
    have hrowlen : ((orderedIdx st'.idx).map (fun j => st'.dE.getD j [])).flatten.length =
        ((orderedIdx st.idx).map (fun j => st.dE.getD j [])).flatten.length := by
      rw [((sel_perm_rows hlen1').flatten).length_eq,
        ((sel_perm_rows hlen1).flatten).length_eq, (hdperm.flatten).length_eq]
    have hsomeF := forceFromGrads_transfer hlen1 hlen1' hrowlen hF
    obtain ⟨F', hF'⟩ := Option.isSome_iff_exists.mp hsomeF
    refine ⟨some F', ?_, ?_⟩
    · unfold FullNN.forward
      dsimp only
      rw [if_pos rfl, hfp]
      simp only [Option.bind_eq_bind, Option.some_bind]
      rw [hloop']
      simp only [Option.some_bind]
      rw [hF']
      simp only [Option.some_bind, Option.pure_def]
      rw [hE, ← hE0]
    · intro hsingle
      have hsingleElem : ∀ v : ℕ, ∀ e₁ ∈ M.unique_atoms, ∀ e₂ ∈ M.unique_atoms,
          v ∈ elemIdx input e₁ → v ∈ elemIdx input e₂ → e₁ = e₂ := by
        intro v e₁ _ e₂ _ hv₁ hv₂
        unfold elemIdx at hv₁ hv₂
        cases hl₁ : lookupElem input e₁ with
        | none => rw [hl₁] at hv₁; exact absurd hv₁ (List.not_mem_nil v)
        | some ed₁ =>
          cases hl₂ : lookupElem input e₂ with
          | none => rw [hl₂] at hv₂; exact absurd hv₂ (List.not_mem_nil v)
          | some ed₂ =>
            rw [hl₁] at hv₁
            rw [hl₂] at hv₂
            have := hsingle v (e₁, ed₁) (lookupElem_mem hl₁) (e₂, ed₂)
              (lookupElem_mem hl₂) hv₁ hv₂
            exact congrArg Prod.fst this
      have hselEq := sel_eq_of_single_owner σ σd M.models input hperm hnd hlenf hsingleElem
      rw [← hdE, ← hidx, ← hdE', ← hidx'] at hselEq
      have hcongr := @forceFromGrads_congr_sel fpm st.dE st'.dE st.idx st'.idx hlen1
        hlen1' hselEq
      rw [hF, hF'] at hcongr
      rw [hfF]
      exact hcongr

def modelsC4 : String → List DenseL := fun e => if e = "A" then linNet [1] else linNet [2]

def fnnC4a : FullNN :=
  { unique_atoms := ["A", "B"], models := modelsC4, forcetraining := true }

def fnnC4b : FullNN :=
  { unique_atoms := ["B", "A"], models := modelsC4, forcetraining := true }

def batchC4 : List (String × ElemData) :=
  [("A", { inputs := [[0]], cidx := [0] }), ("B", { inputs := [[0]], cidx := [0] })]

def fpC4 : Mat := [[1, 0, 0, 0, 0, 0], [0, 0, 0, 0, 0, 0]]

/-- Claim C4 counterexample: two single-atom element groups sharing owner
index 0.  Swapping the element-iteration order leaves `energy_pred`
unchanged but changes `force_pred` (the two gradient rows swap places
inside the owner-0 block of the reordered row, and the fixed
`SparseForceMap` weights them differently), so force_pred is NOT
invariant under permuting the element-iteration order. -/
theorem amptorch_C4_cex :
    fnnC4a.unique_atoms.Perm fnnC4b.unique_atoms ∧
    FullNN.forward id id fnnC4a batchC4 1 (some fpC4) =
      some ([0], some [[-1, 0, 0], [0, 0, 0]]) ∧
    FullNN.forward id id fnnC4b batchC4 1 (some fpC4) =
      some ([0], some [[-2, 0, 0], [0, 0, 0]]) ∧
    ([[-1, 0, 0], [0, 0, 0]] : Mat) ≠ [[-2, 0, 0], [0, 0, 0]] := by
  refine ⟨by decide, ?_, ?_, by decide⟩
  · simp +decide [FullNN.forward, fwdLoop, lookupElem, List.find?, indexAdd?, mlpOut,
      mlpForward, DenseL.fwd, denseLin, dot, mlpGradRow, vjp, forceFromGrads, selectRows?,
      orderedIdx, truePosIdx, booleanMat, uniqueSorted, trM, matMul?, matShape?, negMat,
      reshape3?, chunks3, fnnC4a, batchC4, fpC4, modelsC4, linNet, List.insertionSort,
      List.orderedInsert, List.dedup, List.range_succ, List.range_zero]
  · simp +decide [FullNN.forward, fwdLoop, lookupElem, List.find?, indexAdd?, mlpOut,
      mlpForward, DenseL.fwd, denseLin, dot, mlpGradRow, vjp, forceFromGrads, selectRows?,
      orderedIdx, truePosIdx, booleanMat, uniqueSorted, trM, matMul?, matShape?, negMat,
      reshape3?, chunks3, fnnC4b, batchC4, fpC4, modelsC4, linNet, List.insertionSort,
      List.orderedInsert, List.dedup, List.range_succ, List.range_zero]

theorem amptorch_C4_witness :
    ∃ f', FullNN.forward id id
        { unique_atoms := ["A"], models := fnnC1.models, forcetraining := fnnC1.forcetraining }
        batchC1 1 (some [[1, 0, 0], [0, 1, 0]]) = some ([3], f') ∧
      ((∀ v : ℕ, ∀ p₁ ∈ batchC1, ∀ p₂ ∈ batchC1,
          v ∈ (p₁ : String × ElemData).2.cidx → v ∈ (p₂ : String × ElemData).2.cidx →
          p₁ = p₂) → f' = some [[-1, -1, 0]]) :=
  by
  have hok : FullNN.forward id id fnnC1 batchC1 1 (some [[1, 0, 0], [0, 1, 0]]) =
      some ([3], some [[-1, -1, 0]]) := by
    simp +decide [FullNN.forward, fwdLoop, lookupElem, List.find?, indexAdd?, mlpOut,
      mlpForward, DenseL.fwd, denseLin, dot, mlpGradRow, vjp, forceFromGrads, selectRows?,
      orderedIdx, truePosIdx, booleanMat, uniqueSorted, trM, matMul?, matShape?, negMat,
      reshape3?, chunks3, fnnC1, batchC1, linNet, List.insertionSort,
      List.orderedInsert, List.dedup, List.range_succ, List.range_zero]
    norm_num
  exact amptorch_C4 id id fnnC1 ["A"] batchC1 1 (some [[1, 0, 0], [0, 1, 0]]) [3]
    (some [[-1, -1, 0]]) (by decide) (by decide) hok

/-! ## Lemmas on the extended float values -/

theorem isFin_flAdd (a b : Fl) : (flAdd a b).isFin = (a.isFin && b.isFin) := by
  cases a <;> cases b <;> rfl

theorem isFin_flSub (a b : Fl) : (flSub a b).isFin = (a.isFin && b.isFin) := by
  cases a <;> cases b <;> rfl

theorem isFin_flMul (a b : Fl) : (flMul a b).isFin = (a.isFin && b.isFin) := by
  cases a <;> cases b <;>
    (first
      | rfl
      | (simp only [flMul]; split_ifs <;> rfl))

theorem foldl_flAdd_nonfin : ∀ (l : List Fl) (acc : Fl),
    ((∃ x ∈ l, x.isFin = false) ∨ acc.isFin = false) →
    (l.foldl flAdd acc).isFin = false := by
  intro l
  induction l with
  | nil =>
    intro acc h
    rcases h with ⟨x, hx, -⟩ | h
    · exact absurd hx (List.not_mem_nil x)
    · exact h
  | cons x rest ih =>
    intro acc h
    rw [List.foldl_cons]
    rcases h with ⟨y, hy, hyf⟩ | h
    · rcases List.mem_cons.mp hy with rfl | hy'
      · exact ih _ (Or.inr (by rw [isFin_flAdd, hyf]; simp))
      · exact ih _ (Or.inl ⟨y, hy', hyf⟩)
    · exact ih _ (Or.inr (by rw [isFin_flAdd, h]; simp))

theorem foldl_flAdd_fins : ∀ (qs : List ℚ) (a : ℚ),
    ((qs.map Fl.fin).foldl flAdd (.fin a)) = .fin (a + qs.sum) := by
  intro qs
  induction qs with
  | nil => intro a; simp
  | cons q rest ih =>
    intro a
    rw [List.map_cons, List.foldl_cons]
    show (rest.map Fl.fin).foldl flAdd (flAdd (.fin a) (.fin q)) = _
    rw [show flAdd (.fin a) (.fin q) = .fin (a + q) from rfl, ih]
    rw [List.sum_cons]
    ring_nf

theorem l2reg_fin (sqrtPos : ℚ → ℚ) (ps : List (List ℚ)) :
    ∃ t, l2reg sqrtPos ps = .fin t := by
  unfold l2reg
  suffices h : ∀ (ps : List (List ℚ)) (a : ℚ), ∃ t,
      ps.foldl (fun acc w => flAdd acc (.fin (sqrtPos ((w.map (fun x => x * x)).sum))))
        (.fin a) = .fin t by
    exact h ps 0
  intro ps'
  induction ps' with
  | nil => intro a; exact ⟨a, rfl⟩
  | cons w rest ih =>
    intro a
    rw [List.foldl_cons]
    exact ih _

theorem flDiv_fin_fin {a c : ℚ} (hc : c ≠ 0) : flDiv (.fin a) (.fin c) = .fin (a / c) := by
  simp [flDiv, hc]

theorem zip_zip_sum : ∀ (ep et n : List ℚ), ep.length = n.length → et.length = n.length →
    (((ep.zip n).zip (et.zip n)).map
      (fun p => (p.1.1 / p.1.2 - p.2.1 / p.2.2) ^ 2)).sum =
    ((ep.zip (et.zip n)).map (fun t => (t.1 / t.2.2 - t.2.1 / t.2.2) ^ 2)).sum := by
  intro ep
  induction ep with
  | nil => intro et n _ _; simp
  | cons p eprest ih =>
    intro et n h1 h2
    cases n with
    | nil => simp at h1
    | cons c nrest =>
      cases et with
      | nil => simp at h2
      | cons t etrest =>
        simp only [List.zip_cons_cons, List.map_cons, List.sum_cons]
        rw [ih etrest nrest (by simpa using h1) (by simpa using h2)]

theorem mse_div_eq (ep et n : List ℚ) (h1 : ep.length = n.length)
    (h2 : et.length = n.length) (h0 : ∀ c ∈ n, c ≠ 0) :
    mseSumFl ((ep.zip n).map (fun p => flDiv (.fin p.1) (.fin p.2)))
      ((et.zip n).map (fun p => flDiv (.fin p.1) (.fin p.2))) =
      .fin (((ep.zip (et.zip n)).map
        (fun t => (t.1 / t.2.2 - t.2.1 / t.2.2) ^ 2)).sum) := by
  unfold mseSumFl
  rw [List.zip_map, List.map_map]
  have hsq : ((ep.zip n).zip (et.zip n)).map
      ((fun p => flMul (flSub p.1 p.2) (flSub p.1 p.2)) ∘
        Prod.map (fun p => flDiv (.fin p.1) (.fin p.2))
          (fun p => flDiv (.fin p.1) (.fin p.2))) =
      (((ep.zip n).zip (et.zip n)).map
        (fun p => (p.1.1 / p.1.2 - p.2.1 / p.2.2) ^ 2)).map Fl.fin := by
    rw [List.map_map]
    apply List.map_congr_left
    intro p hp
    have hc1 : p.1.2 ≠ 0 := h0 _ (List.of_mem_zip (List.of_mem_zip hp).1).2
    have hc2 : p.2.2 ≠ 0 := h0 _ (List.of_mem_zip (List.of_mem_zip hp).2).2
    simp only [Function.comp, Prod.map]
    rw [flDiv_fin_fin hc1, flDiv_fin_fin hc2]
    show Fl.fin ((p.1.1 / p.1.2 - p.2.1 / p.2.2) * (p.1.1 / p.1.2 - p.2.1 / p.2.2)) = _
    rw [← sq]
  rw [hsq, foldl_flAdd_fins, zip_zip_sum ep et n h1 h2]
  norm_num

/-- Claim C8: the plain loss (`CustomLoss`) with `force_coefficient = 0`,
given positive atom counts and a model for the (inert, hardwired-to-zero)
regularization, returns exactly `0.5 × Σ (pred/n − target/n)²` — no force
term and no other contribution enters the result. -/
theorem amptorch_C8 (sqrtPos : ℚ → ℚ) (energy_pred energy_targets num_atoms : List ℚ)
    (force_pred force_targets : Option Mat) (params : List (List ℚ))
    (h1 : energy_pred.length = num_atoms.length)
    (h2 : energy_targets.length = num_atoms.length)
    (hpos : ∀ c ∈ num_atoms, 0 < c) :
    CustomLoss.forward sqrtPos 0 energy_pred energy_targets num_atoms force_pred
      force_targets (some params) =
      .ok (.fin ((1 / 2) * ((energy_pred.zip (energy_targets.zip num_atoms)).map
        (fun t => (t.1 / t.2.2 - t.2.1 / t.2.2) ^ 2)).sum)) := by
  unfold CustomLoss.forward
  rw [if_pos ⟨h1, h2⟩]
  simp only
  rw [if_neg (by norm_num)]
  rw [mse_div_eq energy_pred energy_targets num_atoms h1 h2
    (fun c hc => ne_of_gt (hpos c hc))]
  obtain ⟨t, ht⟩ := l2reg_fin sqrtPos params
  rw [ht]
  show Except.ok (flAdd (.fin _) (flMul (.fin 0) (.fin t))) = _
  show Except.ok (flAdd (.fin _) (.fin (0 * t))) = _
  show Except.ok (Fl.fin (1 / 2 * ((energy_pred.zip (energy_targets.zip num_atoms)).map
    (fun t => (t.1 / t.2.2 - t.2.1 / t.2.2) ^ 2)).sum + 0 * t)) = _
  norm_num

theorem amptorch_C8_witness :
    CustomLoss.forward id 0 [2] [4] [2] none none (some []) =
      .ok (.fin ((1 / 2) * (([(2 : ℚ)].zip ([(4 : ℚ)].zip [(2 : ℚ)])).map
        (fun t => (t.1 / t.2.2 - t.2.1 / t.2.2) ^ 2)).sum)) :=
  amptorch_C8 id [2] [4] [2] none none [] (by decide) (by decide)
    (by
      intro c hc
      rw [List.mem_singleton] at hc
      subst hc
      norm_num)

theorem flMul_zero_fin (t : ℚ) : flMul (.fin 0) (.fin t) = .fin 0 := by
  simp [flMul]

/-- Claim C9: every loss variant iterates `model.parameters()`
unconditionally, so the default `model=None` invocation fails with the
attribute error in all three variants; and with a model supplied the
returned loss never depends on the model's parameter values (the
regularization coefficient is hardwired to 0 in `CustomLoss`, and
`MSLELoss`/`TanhLoss` never use `l2_reg` in the returned value). -/
theorem amptorch_C9 (logPos sqrtPos tanhF : ℚ → ℚ) (alpha : ℚ)
    (energy_pred energy_targets num_atoms : List ℚ)
    (force_pred force_targets : Option Mat) (ps ps' : List (List ℚ))
    (h1 : energy_pred.length = num_atoms.length)
    (h2 : energy_targets.length = num_atoms.length) :
    CustomLoss.forward sqrtPos alpha energy_pred energy_targets num_atoms force_pred
      force_targets none = .error .attributeError ∧
    MSLELoss.forward logPos sqrtPos alpha energy_pred energy_targets num_atoms force_pred
      force_targets none = .error .attributeError ∧
    TanhLoss.forward tanhF sqrtPos alpha energy_pred energy_targets num_atoms force_pred
      force_targets none = .error .attributeError ∧
    CustomLoss.forward sqrtPos alpha energy_pred energy_targets num_atoms force_pred
        force_targets (some ps) =
      CustomLoss.forward sqrtPos alpha energy_pred energy_targets num_atoms force_pred
        force_targets (some ps') ∧
    MSLELoss.forward logPos sqrtPos alpha energy_pred energy_targets num_atoms force_pred
        force_targets (some ps) =
      MSLELoss.forward logPos sqrtPos alpha energy_pred energy_targets num_atoms force_pred
        force_targets (some ps') ∧
    TanhLoss.forward tanhF sqrtPos alpha energy_pred energy_targets num_atoms force_pred
        force_targets (some ps) =
      TanhLoss.forward tanhF sqrtPos alpha energy_pred energy_targets num_atoms force_pred
        force_targets (some ps') := by
  refine ⟨?_, ?_, ?_, ?_, ?_, ?_⟩
  · unfold CustomLoss.forward
    rw [if_pos ⟨h1, h2⟩]
  · unfold MSLELoss.forward
    rw [if_pos ⟨h1, h2⟩]
  · unfold TanhLoss.forward
    rw [if_pos ⟨h1, h2⟩]
  · unfold CustomLoss.forward
    rw [if_pos ⟨h1, h2⟩, if_pos ⟨h1, h2⟩]
    obtain ⟨t, ht⟩ := l2reg_fin sqrtPos ps
    obtain ⟨t', ht'⟩ := l2reg_fin sqrtPos ps'
    simp only [ht, ht']
    by_cases halpha : 0 < alpha
    · rw [if_pos halpha, if_pos halpha]
      cases force_pred with
      | none => rfl
      | some fpm =>
        cases force_targets with
        | none => rfl
        | some ftm =>
          simp only
          cases hnf : normalizeForces sqrtPos num_atoms fpm with
          | error err => rfl
          | ok fpn =>
            cases hnf2 : normalizeForces sqrtPos num_atoms ftm with
            | error err => rfl
            | ok ftn =>
              simp only [flMul_zero_fin]
    · rw [if_neg halpha, if_neg halpha]
      rw [flMul_zero_fin, flMul_zero_fin]
  · rfl
  · rfl

theorem amptorch_C9_witness :
    CustomLoss.forward id 0 [1] [1] [1] none none none = .error .attributeError ∧
    MSLELoss.forward id id 0 [1] [1] [1] none none none = .error .attributeError ∧
    TanhLoss.forward id id 0 [1] [1] [1] none none none = .error .attributeError ∧
    CustomLoss.forward id 0 [1] [1] [1] none none (some [[1]]) =
      CustomLoss.forward id 0 [1] [1] [1] none none (some []) ∧
    MSLELoss.forward id id 0 [1] [1] [1] none none (some [[1]]) =
      MSLELoss.forward id id 0 [1] [1] [1] none none (some []) ∧
    TanhLoss.forward id id 0 [1] [1] [1] none none (some [[1]]) =
      TanhLoss.forward id id 0 [1] [1] [1] none none (some []) :=
  amptorch_C9 id id id 0 [1] [1] [1] none none [[1]] [] (by decide) (by decide)

theorem flLog_nonpos (logPos : ℚ → ℚ) {q : ℚ} (h : q ≤ 0) :
    (flLog logPos (.fin q)).isFin = false := by
  rcases h.lt_or_eq with hlt | heq
  · simp [flLog, hlt, Fl.isFin]
  · rw [heq]
    simp [flLog, Fl.isFin]

/-- Claim C6 (amended): the log-variant loss performs NO domain check.
With a model supplied and matching shapes (force term inactive) it always
returns `Except.ok` — it never signals `NumericDomainError` — and
whenever some per-atom energy average is ≤ 0 the silently returned value
is non-finite (NaN or ±inf), exactly as `torch.log` behaves on a
non-positive tensor entry. -/
theorem amptorch_C6 (logPos sqrtPos : ℚ → ℚ)
    (energy_pred energy_targets num_atoms : List ℚ) (params : List (List ℚ))
    (h1 : energy_pred.length = num_atoms.length)
    (h2 : energy_targets.length = num_atoms.length) :
    ∃ v, MSLELoss.forward logPos sqrtPos 0 energy_pred energy_targets num_atoms none none
        (some params) = .ok v ∧
      ((∃ i, i < energy_pred.length ∧ num_atoms.getD i 1 ≠ 0 ∧
          energy_pred.getD i 0 / num_atoms.getD i 1 ≤ 0) → v.isFin = false) := by
  unfold MSLELoss.forward
  rw [if_pos ⟨h1, h2⟩]
  simp only
  rw [if_neg (by norm_num : ¬ (0 : ℚ) < 0)]
  refine ⟨_, rfl, ?_⟩
  rintro ⟨i, hi, hn0, hle⟩
  have hin : i < num_atoms.length := by omega
  rw [isFin_flMul]
  have hE : (mseSumFl
      ((energy_pred.zip num_atoms).map (fun p => flLog logPos (flDiv (.fin p.1) (.fin p.2))))
      ((energy_targets.zip num_atoms).map
        (fun p => flLog logPos (flDiv (.fin p.1) (.fin p.2))))).isFin = false := by
    unfold mseSumFl
    apply foldl_flAdd_nonfin
    left
    have hiz1 : i < (energy_pred.zip num_atoms).length := by
      rw [List.length_zip]
      omega
    have hizm : i <
        (((energy_pred.zip num_atoms).map
            (fun p => flLog logPos (flDiv (.fin p.1) (.fin p.2)))).zip
          ((energy_targets.zip num_atoms).map
            (fun p => flLog logPos (flDiv (.fin p.1) (.fin p.2))))).length := by
      rw [List.length_zip, List.length_map, List.length_map, List.length_zip,
        List.length_zip]
      omega
    have hizmm : i <
        ((((energy_pred.zip num_atoms).map
            (fun p => flLog logPos (flDiv (.fin p.1) (.fin p.2)))).zip
          ((energy_targets.zip num_atoms).map
            (fun p => flLog logPos (flDiv (.fin p.1) (.fin p.2))))).map
          (fun p => flMul (flSub p.1 p.2) (flSub p.1 p.2))).length := by
      rw [List.length_map]
      exact hizm
    refine ⟨_, List.getElem_mem hizmm, ?_⟩
    rw [List.getElem_map, List.getElem_zip, List.getElem_map, List.getElem_map,
      List.getElem_zip]
    rw [isFin_flMul, isFin_flSub]
    have hdiv : flDiv (.fin energy_pred[i]) (.fin num_atoms[i]) =
        .fin (energy_pred[i] / num_atoms[i]) := by
      apply flDiv_fin_fin
      rw [← List.getD_eq_getElem num_atoms 1 hin]
      exact hn0
    rw [hdiv]
    have hlog : (flLog logPos (.fin (energy_pred[i] / num_atoms[i]))).isFin = false := by
      apply flLog_nonpos
      rw [← List.getD_eq_getElem energy_pred 0 hi, ← List.getD_eq_getElem num_atoms 1 hin]
      exact hle
    rw [hlog]
    simp
  rw [hE]
  simp

theorem amptorch_C6_cex_eval :
    MSLELoss.forward (fun _ => 0) (fun _ => 0) 0 [-1] [1] [1] none none (some []) =
      .ok Fl.nan := by
  simp +decide [MSLELoss.forward, mseSumFl, flLog, flDiv, flSub, flMul, flAdd, l2reg]

/-- Claim C6 counterexample: invoked with a per-atom energy average of
`-1 ≤ 0`, the log-variant loss does NOT raise a `NumericDomainError` —
it silently returns a value (the NaN `torch.log` produces on a negative
entry). -/
theorem amptorch_C6_cex :
    ((-1 : ℚ) / 1 ≤ 0) ∧
    MSLELoss.forward (fun _ => 0) (fun _ => 0) 0 [-1] [1] [1] none none (some []) =
      .ok Fl.nan ∧
    MSLELoss.forward (fun _ => 0) (fun _ => 0) 0 [-1] [1] [1] none none (some []) ≠
      .error LossErr.numericDomainError := by
  refine ⟨by norm_num, amptorch_C6_cex_eval, ?_⟩
  rw [amptorch_C6_cex_eval]
  simp

theorem amptorch_C6_witness :
    ∃ v, MSLELoss.forward (fun _ => 0) (fun _ => 0) 0 [-1] [1] [1] none none (some []) =
        .ok v ∧
      ((∃ i, i < ([(-1 : ℚ)]).length ∧ ([(1 : ℚ)]).getD i 1 ≠ 0 ∧
          ([(-1 : ℚ)]).getD i 0 / ([(1 : ℚ)]).getD i 1 ≤ 0) → v.isFin = false) :=
  amptorch_C6 (fun _ => 0) (fun _ => 0) [-1] [1] [1] [] (by decide) (by decide)

def batchC2 : List (String × ElemData) := [("A", { inputs := [[3], [4]], cidx := [0, 0] })]

theorem amptorch_C2_witness :
    ([7, 0] : List ℚ).getD 0 0 =
      (batchC2.map (fun p => atomSumEntry id fnnC5.models p 0)).sum := by
  have hok : FullNN.forward id id fnnC5 batchC2 2 none = some ([7, 0], none) := by
    simp +decide [FullNN.forward, fwdLoop, lookupElem, List.find?, indexAdd?, mlpOut,
      mlpForward, DenseL.fwd, denseLin, dot, fnnC5, batchC2, linNet]
    norm_num
  exact amptorch_C2 id id fnnC5 batchC2 2 none [7, 0] none hok (by decide) (by decide) 0

theorem amptorch_C10_witness :
    ([7, 0] : List ℚ).length = 2 ∧ ([7, 0] : List ℚ).getD 1 0 = 0 := by
  have hok : FullNN.forward id id fnnC5 batchC2 2 none = some ([7, 0], none) := by
    simp +decide [FullNN.forward, fwdLoop, lookupElem, List.find?, indexAdd?, mlpOut,
      mlpForward, DenseL.fwd, denseLin, dot, fnnC5, batchC2, linNet]
    norm_num
  exact ⟨(amptorch_C10 id id fnnC5 batchC2 2 none [7, 0] none hok).1,
    (amptorch_C10 id id fnnC5 batchC2 2 none [7, 0] none hok).2 1 (by decide)⟩
